import Mathlib

/-!
Verification model of the vite-plugin-inline plugin.

The hand-linking pipeline (the regex constants, export2Return, import2Const,
getCssData, getJsChunkData, getJsData, generateBundle) is embedded from
src/unnamed/part_000; collectJsDeps and findBundleKey are embedded from
src/src/index.ts.  Strings are modelled as List Char; each JS regex of the
source is translated to an explicit scanner with the same matching semantics
(leftmost match, lazy/greedy quantifiers as written in the source pattern).
Fallible operations (non-null assertions that can dereference undefined and
throw at run time) are modelled with Option: a none result means the pass
throws.
-/

set_option maxRecDepth 100000

/-- Strings of the modelled program, as lists of characters. -/
abbrev Str := List Char

/-- Coerce a Lean string literal to the model's string type. -/
def str (s : String) : Str := s.data

/-- The characters matched by the regex class \s on the plugin's inputs
(ASCII whitespace). -/
def isJsSpace (c : Char) : Bool :=
  c = ' ' || c = '\t' || c = '\n' || c = '\r' || c = '\x0b' || c = '\x0c'

/-- The characters matched by the regex class [\w$] used in exportAsRe. -/
def isWordChar (c : Char) : Bool :=
  c.isAlphanum || c = '_' || c = '$'

/-- JS String.endsWith. -/
def endsWithStr (s suf : Str) : Bool := suf.isSuffixOf s

/-- Substring occurrence test (used to state properties of produced text). -/
def hasSub (s pat : Str) : Bool :=
  if pat.isPrefixOf s then true
  else
    match s with
    | [] => false
    | _ :: t => hasSub t pat

/-- Number of (possibly overlapping) occurrences of pat in a string. -/
def countSub (pat : Str) : Str → Nat
  | [] => 0
  | c :: t => (if pat.isPrefixOf (c :: t) then 1 else 0) + countSub pat t

/-- JS String.trim (on the ASCII whitespace the plugin's inputs contain). -/
def trimStr (s : Str) : Str :=
  ((s.dropWhile isJsSpace).reverse.dropWhile isJsSpace).reverse

/-- s.split('/').pop() of the source: the final path segment. -/
def lastSeg (s : Str) : Str :=
  (s.reverse.takeWhile (fun c => c != '/')).reverse

/-- A nonempty [\w$]+ run: the matched run and the rest. -/
def splitWord (s : Str) : Option (Str × Str) :=
  let w := s.takeWhile isWordChar
  if w.isEmpty then none else some (w, s.dropWhile isWordChar)

/-- A nonempty \s+ run: the matched run and the rest. -/
def splitSpaces (s : Str) : Option (Str × Str) :=
  let w := s.takeWhile isJsSpace
  if w.isEmpty then none else some (w, s.dropWhile isJsSpace)

/-- Split at the first closing brace: the text before it and the text after
it.  Models the lazy [\s\S]+? of exportsRe/importRe, whose continuation is
the single character \x7d. -/
def splitBeforeBrace : Str → Option (Str × Str)
  | [] => none
  | c :: t =>
    if c = '\x7d' then some ([], t)
    else (splitBeforeBrace t).map (fun p => (c :: p.1, p.2))

/-- Split at the earliest occurrence of the comment terminator, as the lazy
[\s\S]*? of commentRe does. -/
def splitToStarSlash : Str → Option (Str × Str)
  | [] => none
  | c :: t =>
    if (str "*/").isPrefixOf (c :: t) then some ([], t.drop 1)
    else (splitToStarSlash t).map (fun p => (c :: p.1, p.2))

theorem splitWord_eq {s : Str} {w r : Str} (h : splitWord s = some (w, r)) :
    w ++ r = s ∧ w ≠ [] := by
  unfold splitWord at h
  by_cases he : (s.takeWhile isWordChar).isEmpty
  · simp [he] at h
  · simp [he] at h
    obtain ⟨hw, hr⟩ := h
    subst hw; subst hr
    exact ⟨List.takeWhile_append_dropWhile _ _, by simpa [List.isEmpty_iff] using he⟩

theorem splitWord_len {s : Str} {w r : Str} (h : splitWord s = some (w, r)) :
    r.length < s.length := by
  obtain ⟨hs, hw⟩ := splitWord_eq h
  have := congrArg List.length hs
  simp [List.length_append] at this
  have : 0 < w.length := List.length_pos.mpr hw
  omega

theorem splitSpaces_eq {s : Str} {w r : Str} (h : splitSpaces s = some (w, r)) :
    w ++ r = s ∧ w ≠ [] := by
  unfold splitSpaces at h
  by_cases he : (s.takeWhile isJsSpace).isEmpty
  · simp [he] at h
  · simp [he] at h
    obtain ⟨hw, hr⟩ := h
    subst hw; subst hr
    exact ⟨List.takeWhile_append_dropWhile _ _, by simpa [List.isEmpty_iff] using he⟩

theorem splitSpaces_len {s : Str} {w r : Str} (h : splitSpaces s = some (w, r)) :
    r.length < s.length := by
  obtain ⟨hs, hw⟩ := splitSpaces_eq h
  have := congrArg List.length hs
  simp [List.length_append] at this
  have : 0 < w.length := List.length_pos.mpr hw
  omega

theorem splitBeforeBrace_eq {s a r : Str} (h : splitBeforeBrace s = some (a, r)) :
    s = a ++ '\x7d' :: r := by
  induction s generalizing a r with
  | nil => simp [splitBeforeBrace] at h
  | cons c t ih =>
    unfold splitBeforeBrace at h
    by_cases hc : c = '\x7d'
    · rw [if_pos hc] at h
      simp only [Option.some.injEq, Prod.mk.injEq] at h
      obtain ⟨rfl, rfl⟩ := h
      simp [hc]
    · rw [if_neg hc] at h
      cases hsp : splitBeforeBrace t with
      | none => rw [hsp] at h; simp at h
      | some p =>
        rw [hsp] at h
        obtain ⟨p1, p2⟩ := p
        simp only [Option.map_some', Option.some.injEq, Prod.mk.injEq] at h
        obtain ⟨rfl, rfl⟩ := h
        simpa using congrArg (fun l => c :: l) (ih hsp)

theorem splitToStarSlash_eq {s a r : Str} (h : splitToStarSlash s = some (a, r)) :
    s = a ++ '*' :: '/' :: r := by
  induction s generalizing a r with
  | nil => simp [splitToStarSlash] at h
  | cons c t ih =>
    unfold splitToStarSlash at h
    by_cases hp : (str "*/").isPrefixOf (c :: t) = true
    · obtain ⟨u, hu⟩ := (List.isPrefixOf_iff_prefix.mp hp)
      rw [if_pos hp] at h
      simp only [Option.some.injEq, Prod.mk.injEq] at h
      obtain ⟨rfl, rfl⟩ := h
      have hcu : c :: t = '*' :: '/' :: u := by simpa [str] using hu.symm
      cases hcu
      simp
    · rw [if_neg hp] at h
      cases hsp : splitToStarSlash t with
      | none => rw [hsp] at h; simp at h
      | some p =>
        rw [hsp] at h
        obtain ⟨p1, p2⟩ := p
        simp only [Option.map_some', Option.some.injEq, Prod.mk.injEq] at h
        obtain ⟨rfl, rfl⟩ := h
        simpa using congrArg (fun l => c :: l) (ih hsp)

theorem splitBeforeBrace_len {s a r : Str} (h : splitBeforeBrace s = some (a, r)) :
    r.length < s.length := by
  have := congrArg List.length (splitBeforeBrace_eq h)
  simp [List.length_append] at this
  omega

theorem splitToStarSlash_len {s a r : Str} (h : splitToStarSlash s = some (a, r)) :
    r.length < s.length := by
  have := congrArg List.length (splitToStarSlash_eq h)
  simp [List.length_append] at this
  omega

/-- One attempted match of exportAsRe, ([\w$]+)\s+as\s+([\w$]+), at the start
of the string: returns the two captured identifiers and the rest of the
string after the match.  The character classes [\w$] and \s are disjoint and
the literal as follows the maximal \s+ run, so the greedy quantifiers of the
source pattern need no backtracking. -/
def tryAsAt (s : Str) : Option (Str × Str × Str) :=
  (splitWord s).bind fun p1 =>
  (splitSpaces p1.2).bind fun p2 =>
  if (str "as").isPrefixOf p2.2 then
    (splitSpaces (p2.2.drop 2)).bind fun p3 =>
    (splitWord p3.2).map fun p4 => (p1.1, p4.1, p4.2)
  else none

theorem tryAsAt_len {s w1 w2 rem : Str} (h : tryAsAt s = some (w1, w2, rem)) :
    rem.length < s.length := by
  unfold tryAsAt at h
  simp only [Option.bind_eq_some] at h
  obtain ⟨p1, h1, p2, h2, h'⟩ := h
  by_cases hp : (str "as").isPrefixOf p2.2 = true
  · rw [if_pos hp] at h'
    simp only [Option.bind_eq_some, Option.map_eq_some'] at h'
    obtain ⟨p3, h3, p4, h4, h5⟩ := h'
    have hr : rem = p4.2 := by
      have := congrArg (fun q => q.2.2) h5
      simpa using this.symm
    subst hr
    have l1 := splitWord_len h1
    have l2 := splitSpaces_len h2
    have l3 := splitSpaces_len h3
    have l4 := splitWord_len h4
    have ld : (p2.2.drop 2).length ≤ p2.2.length := by simp [List.length_drop]
    omega
  · rw [if_neg hp] at h'
    exact absurd h' (by simp)

/-- Fuel-indexed scan for the global replacement of exportAsRe with the
template $2:$1.  One unit of fuel is spent per step and every step consumes
at least one character, so fuel = length of the string suffices. -/
def exportAsReplaceF : Nat → Str → Str
  | 0, s => s
  | _ + 1, [] => []
  | fuel + 1, c :: t =>
    match tryAsAt (c :: t) with
    | some (w1, w2, rem) => w2 ++ ':' :: (w1 ++ exportAsReplaceF fuel rem)
    | none => c :: exportAsReplaceF fuel t

/-- Global replacement of exportAsRe with the template $2:$1, as performed by
export2Return on the captured export clause (a as b becomes b:a). -/
def exportAsReplace (s : Str) : Str := exportAsReplaceF s.length s

/-- One attempted match of importAsRe, \s+as\s+, at the start of the string:
returns the rest of the string after the match. -/
def tryImpAsAt (s : Str) : Option Str :=
  (splitSpaces s).bind fun p1 =>
  if (str "as").isPrefixOf p1.2 then
    (splitSpaces (p1.2.drop 2)).map fun p2 => p2.2
  else none

theorem tryImpAsAt_len {s rem : Str} (h : tryImpAsAt s = some rem) :
    rem.length < s.length := by
  unfold tryImpAsAt at h
  simp only [Option.bind_eq_some] at h
  obtain ⟨p1, h1, h'⟩ := h
  by_cases hp : (str "as").isPrefixOf p1.2 = true
  · rw [if_pos hp] at h'
    simp only [Option.map_eq_some'] at h'
    obtain ⟨p2, h2, hr⟩ := h'
    subst hr
    have l1 := splitSpaces_len h1
    have l2 := splitSpaces_len h2
    have ld : (p1.2.drop 2).length ≤ p1.2.length := by simp [List.length_drop]
    omega
  · rw [if_neg hp] at h'
    exact absurd h' (by simp)

/-- Fuel-indexed scan for the global replacement of importAsRe by a colon. -/
def importAsReplaceF : Nat → Str → Str
  | 0, s => s
  | _ + 1, [] => []
  | fuel + 1, c :: t =>
    match tryImpAsAt (c :: t) with
    | some rem => ':' :: importAsReplaceF fuel rem
    | none => c :: importAsReplaceF fuel t

/-- Global replacement of importAsRe, \s+as\s+, by a colon, as performed
by import2Const on the captured import clause. -/
def importAsReplace (s : Str) : Str := importAsReplaceF s.length s

/-- One attempted match of exportsRe, export\s*\x7b([\s\S]+?)\x7d\s*;?, at
the start of the string: the captured clause body and the rest of the string
after the whole match.  The lazy [\s\S]+? consumes at least one character and
stops at the first closing brace (its continuation is the literal brace);
the trailing \s*;? greedily takes the whitespace run and an optional
semicolon. -/
def tryExportAt (s : Str) : Option (Str × Str) :=
  if (str "export").isPrefixOf s then
    match (s.drop 6).dropWhile isJsSpace with
    | '\x7b' :: r2 =>
      match r2 with
      | [] => none
      | c :: r3 =>
        (splitBeforeBrace r3).map fun p =>
          (c :: p.1,
            match p.2.dropWhile isJsSpace with
            | ';' :: r6 => r6
            | r5 => r5)
    | _ => none
  else none

/-- Fuel-indexed scan for the leftmost exportsRe match. -/
def export2ReturnF : Nat → Str → Str
  | 0, s => s
  | _ + 1, [] => []
  | fuel + 1, c :: t =>
    match tryExportAt (c :: t) with
    | some (inner, rem) => str "return\x7b" ++ exportAsReplace inner ++ str "\x7d;" ++ rem
    | none => c :: export2ReturnF fuel t

/-- export2Return from part_000: replace the leftmost exportsRe match by a
return statement whose object body is the clause with exportAsRe rewritten
to $2:$1.  A string without a match is returned unchanged. -/
def export2Return (s : Str) : Str := export2ReturnF s.length s

/-- One attempted match of importRe, import\s*(\x7b[\s\S]+?\x7d), at the
start of the string: the captured braced specifier list (braces included).
The lazy quantifier stops at the first closing brace, since nothing follows
the capture in the pattern. -/
def tryImportReAt (s : Str) : Option Str :=
  if (str "import").isPrefixOf s then
    match (s.drop 6).dropWhile isJsSpace with
    | '\x7b' :: r2 =>
      match r2 with
      | [] => none
      | c :: r3 =>
        (splitBeforeBrace r3).map fun p => '\x7b' :: c :: (p.1 ++ ['\x7d'])
    | _ => none
  else none

/-- Leftmost importRe match over the whole string (String.match with a
non-global regex). -/
def importReFind : Str → Option Str
  | [] => none
  | c :: t =>
    match tryImportReAt (c :: t) with
    | some cap => some cap
    | none => importReFind t

/-- import2Const from part_000: importExpr.match(importRe)![1]!.replace(importAsRe, ":").
The two non-null assertions crash when importRe does not match, hence Option. -/
def import2Const (importExpr : Str) : Option Str :=
  (importReFind importExpr).map importAsReplace

/-- Fuel-indexed scan for the global replacement of commentRe by nothing. -/
def commentReplaceF : Nat → Str → Str
  | 0, s => s
  | _ + 1, [] => []
  | fuel + 1, c :: t =>
    match c :: t with
    | '/' :: '*' :: u =>
      match splitToStarSlash u with
      | some p => commentReplaceF fuel p.2
      | none => '/' :: commentReplaceF fuel ('*' :: u)
    | d :: u => d :: commentReplaceF fuel u
    | [] => []

/-- Global replacement of commentRe, /\*[\s\S]*?\*/, by the empty string. -/
def commentReplace (s : Str) : Str := commentReplaceF s.length s

/-- Consume one (\r?\n) group. -/
def nlTake : Str → Option Str
  | '\r' :: '\n' :: t => some t
  | '\n' :: t => some t
  | _ => none

theorem nlTake_len {s t : Str} (h : nlTake s = some t) : t.length < s.length := by
  unfold nlTake at h
  split at h <;> simp_all <;> omega

theorem length_dropWhile_le (p : Char → Bool) (l : Str) :
    (l.dropWhile p).length ≤ l.length := by
  induction l with
  | nil => simp
  | cons c t ih =>
    rw [List.dropWhile_cons]
    split
    · simp only [List.length_cons]; omega
    · simp

/-- Fuel-indexed greedy consumption of further (\r?\n) groups (the tail of
(\r?\n)+). -/
def nlStarF : Nat → Str → Str
  | 0, s => s
  | _ + 1, [] => []
  | fuel + 1, c :: t =>
    match nlTake (c :: t) with
    | some u => nlStarF fuel u
    | none => c :: t

/-- Greedily consume further (\r?\n) groups. -/
def nlStar (s : Str) : Str := nlStarF s.length s

theorem nlStarF_len : ∀ (fuel : Nat) (s : Str), (nlStarF fuel s).length ≤ s.length := by
  intro fuel
  induction fuel with
  | zero => intro s; simp [nlStarF]
  | succ n ih =>
    intro s
    cases s with
    | nil => simp [nlStarF]
    | cons c t =>
      rw [nlStarF]
      split
      · next u h =>
        have h1 := nlTake_len h
        have h2 := ih u
        omega
      · exact Nat.le_refl _

theorem nlStar_len (s : Str) : (nlStar s).length ≤ s.length := nlStarF_len s.length s

/-- The characters of the inner class [\t\f\v ] of emptyLineRe. -/
def isBlankInner (c : Char) : Bool :=
  c = ' ' || c = '\t' || c = '\x0b' || c = '\x0c'

/-- One attempted match of emptyLineRe, (\r?\n)[\t\f\v ]*(\r?\n)+, at the
start of the string: the rest of the string after the greedy match. -/
def tryEmptyLineAt (s : Str) : Option Str :=
  (nlTake s).bind fun t1 =>
  (nlTake (t1.dropWhile isBlankInner)).map fun t3 => nlStar t3

theorem tryEmptyLineAt_len {s r : Str} (h : tryEmptyLineAt s = some r) :
    r.length < s.length := by
  unfold tryEmptyLineAt at h
  simp only [Option.bind_eq_some, Option.map_eq_some'] at h
  obtain ⟨t1, h1, t3, h3, hr⟩ := h
  subst hr
  have l1 := nlTake_len h1
  have l3 := nlTake_len h3
  have ld := length_dropWhile_le isBlankInner t1
  have ls := nlStar_len t3
  omega

/-- Fuel-indexed scan for the global replacement of emptyLineRe. -/
def emptyLineReplaceF : Nat → Str → Str
  | 0, s => s
  | _ + 1, [] => []
  | fuel + 1, c :: t =>
    match tryEmptyLineAt (c :: t) with
    | some rem => emptyLineReplaceF fuel rem
    | none => c :: emptyLineReplaceF fuel t

/-- Global replacement of emptyLineRe by the empty string, as in
jsBundle.code.replace(emptyLineRe, ""). -/
def emptyLineReplace (s : Str) : Str := emptyLineReplaceF s.length s

/-- cleanup applied to chunk code before linking:
code.replace(emptyLineRe, "").trim() and, when removeComments is set,
.replace(commentRe, "") (lines 120-125 and 153-157 of part_000). -/
def cleanJs (removeComments : Bool) (code : Str) : Str :=
  let s := trimStr (emptyLineReplace code)
  if removeComments then commentReplace s else s

/-- A possibly empty \s* run: the matched run and the rest. -/
def splitSpacesOpt (s : Str) : Str × Str :=
  (s.takeWhile isJsSpace, s.dropWhile isJsSpace)

/-- The tail of jsChunkRe after the closing brace:
\s*from\s*"([^"]+\.js)"; — returns the consumed text, the captured module
reference and the rest of the string.  The greedy [^"]+ followed by \.js"
accepts exactly the quoted runs that end in .js with at least one character
before the suffix. -/
def tryChunkTail (r : Str) : Option (Str × Str × Str) :=
  let p1 := splitSpacesOpt r
  if (str "from").isPrefixOf p1.2 then
    let p2 := splitSpacesOpt (p1.2.drop 4)
    match p2.2 with
    | '"' :: r4 =>
      let q := r4.takeWhile (fun c => c != '"')
      match r4.dropWhile (fun c => c != '"') with
      | '"' :: ';' :: rem =>
        if (str ".js").isSuffixOf q && decide (4 ≤ q.length) then
          some (p1.1 ++ str "from" ++ p2.1 ++ '"' :: (q ++ ['"', ';']), q, rem)
        else none
      | _ => none
    | _ => none
  else none

theorem tryChunkTail_eq {r tt q rem : Str} (h : tryChunkTail r = some (tt, q, rem)) :
    r = tt ++ rem := by
  simp only [tryChunkTail, splitSpacesOpt] at h
  split at h
  · next hp =>
    split at h
    · next r4 heq =>
      split at h
      · next rem' heq2 =>
        split at h
        · next hok =>
          simp only [Option.some.injEq, Prod.mk.injEq] at h
          obtain ⟨rfl, rfl, rfl⟩ := h
          obtain ⟨u, hu⟩ := List.isPrefixOf_iff_prefix.mp hp
          have hdrop : (r.dropWhile isJsSpace).drop 4 = u := by
            rw [← hu]
            have h4 : (str "from").length = 4 := rfl
            rw [← h4, List.drop_left]
          rw [hdrop] at heq
          have h1 : r.takeWhile isJsSpace ++ r.dropWhile isJsSpace = r :=
            List.takeWhile_append_dropWhile _ _
          have h3 : r4.takeWhile (fun c => c != '"') ++
              r4.dropWhile (fun c => c != '"') = r4 :=
            List.takeWhile_append_dropWhile _ _
          have h2 : u.takeWhile isJsSpace ++ u.dropWhile isJsSpace = u :=
            List.takeWhile_append_dropWhile _ _
          conv_lhs => rw [← h1, ← hu, ← h2, heq, ← h3, heq2]
          rw [hdrop]
          simp
        · simp at h
      · simp at h
    · simp at h
  · simp at h

/-- The scan for the lazy body of jsChunkRe, the pattern
 import\s*\x7b([\s\S]+?)\x7d\s*from\s*"([^"]+\.js)"; — at each closing brace
in turn (earliest first, as a lazy quantifier expands), attempt the tail of
the pattern; a brace whose tail fails is absorbed into the body.  Returns
the body after its forced first character, the consumed tail text, the
captured module reference, and the rest of the string. -/
def chunkBodyScan : Str → Option (Str × Str × Str × Str)
  | [] => none
  | c :: t =>
    if c = '\x7d' then
      match tryChunkTail t with
      | some (tt, p, rem) => some ([], tt, p, rem)
      | none => (chunkBodyScan t).map (fun r => ('\x7d' :: r.1, r.2))
    else (chunkBodyScan t).map (fun r => (c :: r.1, r.2))

theorem chunkBodyScan_eq {s content tt q rem : Str}
    (h : chunkBodyScan s = some (content, tt, q, rem)) :
    s = content ++ '\x7d' :: (tt ++ rem) := by
  induction s generalizing content tt q rem with
  | nil => simp [chunkBodyScan] at h
  | cons c t ih =>
    unfold chunkBodyScan at h
    by_cases hc : c = '\x7d'
    · rw [if_pos hc] at h
      cases ht : tryChunkTail t with
      | some p =>
        obtain ⟨tt', q', rem'⟩ := p
        rw [ht] at h
        simp only [Option.some.injEq, Prod.mk.injEq] at h
        obtain ⟨rfl, rfl, rfl, rfl⟩ := h
        have := tryChunkTail_eq ht
        simp [hc, this]
      | none =>
        rw [ht] at h
        cases hs : chunkBodyScan t with
        | none => rw [hs] at h; simp at h
        | some p =>
          obtain ⟨c1, c2, c3, c4⟩ := p
          rw [hs] at h
          simp only [Option.map_some', Option.some.injEq, Prod.mk.injEq] at h
          obtain ⟨rfl, rfl, rfl, rfl⟩ := h
          have := ih hs
          simp [hc, this]
    · rw [if_neg hc] at h
      cases hs : chunkBodyScan t with
      | none => rw [hs] at h; simp at h
      | some p =>
        obtain ⟨c1, c2, c3, c4⟩ := p
        rw [hs] at h
        simp only [Option.map_some', Option.some.injEq, Prod.mk.injEq] at h
        obtain ⟨rfl, rfl, rfl, rfl⟩ := h
        have := ih hs
        simp [this]

/-- One attempted match of jsChunkRe, the pattern
 import\s*\x7b([\s\S]+?)\x7d\s*from\s*"([^"]+\.js)"; at the start of the
string: the whole matched text (match[0]), the captured module reference
(match[1]) and the rest of the string. -/
def tryChunkImportAt (s : Str) : Option (Str × Str × Str) :=
  if (str "import").isPrefixOf s then
    match (s.drop 6).dropWhile isJsSpace with
    | '\x7b' :: r2 =>
      match r2 with
      | [] => none
      | c :: r3 =>
        (chunkBodyScan r3).map fun r =>
          (str "import" ++ (s.drop 6).takeWhile isJsSpace ++
            '\x7b' :: c :: (r.1 ++ '\x7d' :: r.2.1), r.2.2.1, r.2.2.2)
    | _ => none
  else none

theorem tryChunkImportAt_eq {s o q rem : Str} (h : tryChunkImportAt s = some (o, q, rem)) :
    s = o ++ rem ∧ o ≠ [] := by
  simp only [tryChunkImportAt] at h
  split at h
  · next hp =>
    split at h
    · next r2 heq =>
      split at h
      · simp at h
      · next c r3 =>
        cases hs : chunkBodyScan r3 with
        | none => rw [hs] at h; simp at h
        | some p =>
          obtain ⟨c1, c2, c3, c4⟩ := p
          rw [hs] at h
          simp only [Option.map_some', Option.some.injEq, Prod.mk.injEq] at h
          obtain ⟨rfl, rfl, rfl⟩ := h
          obtain ⟨u, hu⟩ := List.isPrefixOf_iff_prefix.mp hp
          have hdrop : s.drop 6 = u := by
            rw [← hu]
            have h6 : (str "import").length = 6 := rfl
            rw [← h6, List.drop_left]
          rw [hdrop] at heq
          have hbody := chunkBodyScan_eq hs
          have h2 : u.takeWhile isJsSpace ++ u.dropWhile isJsSpace = u :=
            List.takeWhile_append_dropWhile _ _
          constructor
          · conv_lhs => rw [← hu, ← h2, heq, hbody]
            rw [hdrop]
            simp
          · simp [str]
    · simp at h
  · simp at h

theorem tryChunkImportAt_len {s o q rem : Str}
    (h : tryChunkImportAt s = some (o, q, rem)) : rem.length < s.length := by
  obtain ⟨hs, ho⟩ := tryChunkImportAt_eq h
  have := congrArg List.length hs
  simp [List.length_append] at this
  have : 0 < o.length := List.length_pos.mpr ho
  omega

/-- Fuel-indexed scan for source.matchAll(jsChunkRe). -/
def jsChunkMatchAllF : Nat → Str → List (Str × Str)
  | 0, _ => []
  | _ + 1, [] => []
  | fuel + 1, c :: t =>
    match tryChunkImportAt (c :: t) with
    | some (o, q, rem) => (o, q) :: jsChunkMatchAllF fuel rem
    | none => jsChunkMatchAllF fuel t

/-- source.matchAll(jsChunkRe): the list of successive leftmost matches,
each as (match[0], match[1]). -/
def jsChunkMatchAll (s : Str) : List (Str × Str) := jsChunkMatchAllF s.length s

/-- Attempt attr="<value>" at the start of a tag-interior string, where the
quoted value must end with the required suffix and have at least minLen
characters ([^"]+ plus the literal suffix).  Returns the captured value. -/
def validAttrAt (attr sufTok : Str) (minLen : Nat) (s : Str) : Option Str :=
  if attr.isPrefixOf s then
    let t := s.drop attr.length
    let q := t.takeWhile (fun c => c != '"')
    match t.dropWhile (fun c => c != '"') with
    | '"' :: _ =>
      if sufTok.isSuffixOf q && decide (minLen ≤ q.length) then some q else none
    | _ => none
  else none

/-- The value of the last matchable attr="..." occurrence inside a tag
interior.  The leading greedy [^>]* of jsMainRe/cssRe backtracks from the
longest run, so the rightmost occurrence that completes a match wins. -/
def lastAttr (attr sufTok : Str) (minLen : Nat) : Str → Option Str
  | [] => none
  | c :: t =>
    match lastAttr attr sufTok minLen t with
    | some q => some q
    | none => validAttrAt attr sufTok minLen (c :: t)

/-- One attempted match of jsMainRe,
<script[^>]*src="([^"]+\.js)"[^>]*></script> at the start of the string:
the whole matched tag, the captured reference, and the rest.  The two [^>]*
runs cannot cross the closing angle bracket, so the tag interior is the
maximal bracket-free run and the literal ></script> must follow it. -/
def tryMainAt (s : Str) : Option (Str × Str × Str) :=
  if (str "<script").isPrefixOf s then
    let r0 := s.drop 7
    let R := r0.takeWhile (fun c => c != '>')
    match r0.dropWhile (fun c => c != '>') with
    | '>' :: rest2 =>
      if (str "</script>").isPrefixOf rest2 then
        match lastAttr (str "src=\"") (str ".js") 4 R with
        | some q => some (str "<script" ++ R ++ '>' :: str "</script>", q, rest2.drop 9)
        | none => none
      else none
    | _ => none
  else none

/-- htmlSource.match(jsMainRe): leftmost match of the non-global main-script
regex, as (match[0], match[1]). -/
def jsMainFind : Str → Option (Str × Str)
  | [] => none
  | c :: t =>
    match tryMainAt (c :: t) with
    | some (o, p, _) => some (o, p)
    | none => jsMainFind t

/-- One attempted match of cssRe, <link[^>]*href="([^"]+\.css)"[^>]*> at the
start of the string: the whole matched tag, the captured reference, and the
rest. -/
def tryCssAt (s : Str) : Option (Str × Str × Str) :=
  if (str "<link").isPrefixOf s then
    let r0 := s.drop 5
    let R := r0.takeWhile (fun c => c != '>')
    match r0.dropWhile (fun c => c != '>') with
    | '>' :: rest2 =>
      match lastAttr (str "href=\"") (str ".css") 5 R with
      | some q => some (str "<link" ++ R ++ ['>'], q, rest2)
      | none => none
    | _ => none
  else none

theorem tryCssAt_eq {s o q rem : Str} (h : tryCssAt s = some (o, q, rem)) :
    s = o ++ rem ∧ o ≠ [] := by
  simp only [tryCssAt] at h
  split at h
  · next hp =>
    split at h
    · next rest2 heq =>
      split at h
      · next q' hla =>
        simp only [Option.some.injEq, Prod.mk.injEq] at h
        obtain ⟨rfl, rfl, rfl⟩ := h
        obtain ⟨u, hu⟩ := List.isPrefixOf_iff_prefix.mp hp
        have hdrop : s.drop 5 = u := by
          rw [← hu]
          have h5 : (str "<link").length = 5 := rfl
          rw [← h5, List.drop_left]
        rw [hdrop] at heq
        have h2 : u.takeWhile (fun c => c != '>') ++ u.dropWhile (fun c => c != '>') = u :=
          List.takeWhile_append_dropWhile _ _
        constructor
        · conv_lhs => rw [← hu, ← h2, heq]
          rw [hdrop]
          simp
        · simp [str]
      · simp at h
    · simp at h
  · simp at h

theorem tryCssAt_len {s o q rem : Str} (h : tryCssAt s = some (o, q, rem)) :
    rem.length < s.length := by
  obtain ⟨hs, ho⟩ := tryCssAt_eq h
  have := congrArg List.length hs
  simp [List.length_append] at this
  have : 0 < o.length := List.length_pos.mpr ho
  omega

/-- Fuel-indexed scan for htmlSource.matchAll(cssRe). -/
def cssMatchAllF : Nat → Str → List (Str × Str)
  | 0, _ => []
  | _ + 1, [] => []
  | fuel + 1, c :: t =>
    match tryCssAt (c :: t) with
    | some (o, q, rem) => (o, q) :: cssMatchAllF fuel rem
    | none => cssMatchAllF fuel t

/-- htmlSource.matchAll(cssRe): all successive leftmost matches of the
global stylesheet-link regex, as (match[0], match[1]). -/
def cssMatchAll (s : Str) : List (Str × Str) := cssMatchAllF s.length s

/-- JS String.replace with a plain string pattern: replace the first
occurrence of pat (the replacement being produced by a function, so no
$-substitution happens in the source either). -/
def replaceOnce (pat rep : Str) : Str → Str
  | [] => if pat.isEmpty then rep else []
  | c :: t =>
    if pat.isPrefixOf (c :: t) then rep ++ (c :: t).drop pat.length
    else c :: replaceOnce pat rep t

/-- An entry of the rollup output bundle as part_000 accesses it: OutputAsset
(a source string) or OutputChunk (a code string). -/
inductive BundleItem where
  | asset (source : Str)
  | chunk (code : Str)
deriving DecidableEq

/-- Reading .source: undefined on a chunk (part_000 casts blindly; the
subsequent string operation would throw). -/
def BundleItem.sourceText : BundleItem → Option Str
  | .asset s => some s
  | .chunk _ => none

/-- Reading .code: undefined on an asset. -/
def BundleItem.codeText : BundleItem → Option Str
  | .chunk c => some c
  | .asset _ => none

/-- The rollup OutputBundle: a key-ordered dictionary from file name to
emitted item (Object.keys order is the list order; keys are unique). -/
abbrev OutBundle := List (Str × BundleItem)

/-- bundle[key]. -/
def lookupItem (b : OutBundle) (k : Str) : Option BundleItem :=
  (b.find? (fun e => decide (e.1 = k))).map Prod.snd

/-- keys.find(it => it.endsWith(name)) of part_000 (getCssData line 84,
getJsChunkData line 116, getJsData line 150). -/
def findKey (keys : List Str) (nm : Str) : Option Str :=
  keys.find? (fun k => endsWithStr k nm)

/-- Array.prototype.map over a fallible element function: the callback of
the source can throw, which aborts the whole map. -/
def seqMap (f : α → Option β) : List α → Option (List β)
  | [] => some []
  | x :: xs =>
    match f x with
    | none => none
    | some y =>
      match seqMap f xs with
      | none => none
      | some ys => some (y :: ys)

/-- getCssData of part_000: look the stylesheet up by file-name suffix (the
non-null assertion throws when nothing matches), optionally strip comments,
and wrap the trimmed source in a style tag.  Returns (origin, source, key). -/
def getCssData (origin cssName : Str) (cssKeys : List Str) (bundle : OutBundle)
    (removeComments : Bool) : Option (Str × Str × Str) :=
  match findKey cssKeys cssName with
  | none => none
  | some key =>
    match lookupItem bundle key with
    | none => none
    | some item =>
      match item.sourceText with
      | none => none
      | some source =>
        let s1 := if removeComments then commentReplace source else source
        some (origin, str "<style>" ++ trimStr s1 ++ str "</style>", key)

/-- getJsChunkData of part_000: look the chunk up by file-name suffix (the
non-null assertion throws when nothing matches), clean its code, and emit
const <import2Const(origin)>=(()=>\x7b<export2Return(code)>\x7d)();
Returns (origin, source, key). -/
def getJsChunkData (origin jsName : Str) (jsKeys : List Str) (bundle : OutBundle)
    (removeComments : Bool) : Option (Str × Str × Str) :=
  match findKey jsKeys jsName with
  | none => none
  | some key =>
    match lookupItem bundle key with
    | none => none
    | some item =>
      match item.codeText with
      | none => none
      | some code =>
        match import2Const origin with
        | none => none
        | some ic =>
          some (origin,
            str "const " ++ ic ++ str "=(()=>\x7b" ++
              export2Return (cleanJs removeComments code) ++ str "\x7d)();",
            key)

/-- getJsData of part_000: look the entry chunk up by file-name suffix,
clean its code, process every jsChunkRe match through getJsChunkData,
substitute each match by its IIFE, and wrap the result in a module script
tag.  Returns (origin, source, keys). -/
def getJsData (origin jsName : Str) (jsKeys : List Str) (bundle : OutBundle)
    (removeComments : Bool) : Option (Str × Str × List Str) :=
  match findKey jsKeys jsName with
  | none => none
  | some key =>
    match lookupItem bundle key with
    | none => none
    | some item =>
      match item.codeText with
      | none => none
      | some code =>
        let source := cleanJs removeComments code
        match seqMap
            (fun m => getJsChunkData m.1 (lastSeg m.2) jsKeys bundle removeComments)
            (jsChunkMatchAll source) with
        | none => none
        | some datas =>
          let s2 := datas.foldl (fun acc d => replaceOnce d.1 d.2.1 acc) source
          some (origin,
            str "<script type=\"module\">" ++ trimStr s2 ++ str "</script>",
            key :: datas.map (fun d => d.2.2))

/-- console.warn shown when an HTML file has no main script tag. -/
def noMainWarn (htmlKey : Str) : Str := str "No main found in " ++ htmlKey

/-- The body of the htmlKeys.forEach callback of generateBundle: returns the
updated HTML source (none when the file is left untouched), the bundle keys
collected for deletion on behalf of this file, and the warnings printed. -/
def processHtml (bundle : OutBundle) (cssKeys jsKeys : List Str)
    (removeComments : Bool) (htmlKey : Str) :
    Option (Option Str × List Str × List Str) :=
  match lookupItem bundle htmlKey with
  | none => none
  | some item =>
    match item.sourceText with
    | none => none
    | some html =>
      match seqMap
          (fun m => getCssData m.1 (lastSeg m.2) cssKeys bundle removeComments)
          (cssMatchAll html) with
      | none => none
      | some cssDatas =>
        match jsMainFind html with
        | none => some (none, [], [noMainWarn htmlKey])
        | some (jsOrigin, jsPath) =>
          match getJsData jsOrigin (lastSeg jsPath) jsKeys bundle removeComments with
          | none => none
          | some jsData =>
            let h1 := cssDatas.foldl (fun acc d => replaceOnce d.1 d.2.1 acc) html
            let h2 := replaceOnce jsData.1 jsData.2.1 h1
            some (some h2, cssDatas.map (fun d => d.2.2) ++ jsData.2.2, [])

/-- In-place update of the html asset, htmlBundle.source = htmlSource. -/
def updateKey (b : OutBundle) (k : Str) (src : Str) : OutBundle :=
  b.map (fun e => if e.1 = k then (e.1, BundleItem.asset src) else e)

/-- The htmlKeys.forEach loop of generateBundle, threading the mutated
bundle, the collected toDeleteKeys and the printed warnings. -/
def processAll (cssKeys jsKeys : List Str) (removeComments : Bool) :
    OutBundle → List Str → List Str → List Str →
    Option (OutBundle × List Str × List Str)
  | b, [], dels, warns => some (b, dels, warns)
  | b, hk :: rest, dels, warns =>
    match processHtml b cssKeys jsKeys removeComments hk with
    | none => none
    | some (upd, keys, ws) =>
      let b1 := match upd with
        | some s => updateKey b hk s
        | none => b
      processAll cssKeys jsKeys removeComments b1 rest (dels ++ keys) (warns ++ ws)

/-- Array.from(new Set(l)): deduplication preserving first occurrences. -/
def dedupKeys : List Str → List Str → List Str
  | [], _ => []
  | k :: t, seen => if k ∈ seen then dedupKeys t seen else k :: dedupKeys t (k :: seen)

/-- delete bundle[key] for every collected key. -/
def removeKeys (b : OutBundle) (ks : List Str) : OutBundle :=
  b.filter (fun e => decide (e.1 ∉ ks))

/-- generateBundle of part_000: split the bundle keys by extension, process
every HTML file, then delete the deduplicated collected keys.  Returns the
final bundle, the deleted keys, and the warnings; none models an uncaught
exception aborting the hook. -/
def generateBundle (bundle : OutBundle) (removeComments : Bool) :
    Option (OutBundle × List Str × List Str) :=
  let bundleKeys := bundle.map Prod.fst
  let htmlKeys := bundleKeys.filter (fun k => endsWithStr k (str ".html"))
  let cssKeys := bundleKeys.filter (fun k => endsWithStr k (str ".css"))
  let jsKeys := bundleKeys.filter (fun k => endsWithStr k (str ".js"))
  match processAll cssKeys jsKeys removeComments bundle htmlKeys [] [] with
  | none => none
  | some (b, dels, warns) =>
    let fd := dedupKeys dels []
    some (removeKeys b fd, fd, warns)

/-- An entry of the OutputBundle as src/src/index.ts's collectJsDeps reads
it: its type tag and its static and dynamic import lists. -/
structure RollItem where
  type : Str
  imports : List Str
  dynamicImports : List Str
deriving DecidableEq

/-- The bundle of the newer iteration, for collectJsDeps/findBundleKey. -/
abbrev RollBundle := List (Str × RollItem)

/-- bundle[key] of index.ts. -/
def lookupRoll (b : RollBundle) (k : Str) : Option RollItem :=
  (b.find? (fun e => decide (e.1 = k))).map Prod.snd

/-- node path.basename on the slash-separated names the plugin handles. -/
def basenameStr (s : Str) : Str := lastSeg s

/-- findBundleKey of index.ts: exact key match, else first key with the same
basename. -/
def findBundleKey (bundle : RollBundle) (fileName : Str) : Option Str :=
  if fileName ∈ bundle.map Prod.fst then some fileName
  else (bundle.map Prod.fst).find? (fun k => decide (basenameStr k = basenameStr fileName))

/-- The while loop of collectJsDeps, with an explicit fuel parameter: one
unit of fuel is spent per iteration, so a some result certifies that the
loop finished within the given number of iterations.  q is the pending
queue, seen the insertion-ordered visited set. -/
def collectAux (bundle : RollBundle) (includeDynamic : Bool) :
    Nat → List Str → List Str → Option (List Str)
  | 0, _, _ => none
  | _ + 1, [], seen => some seen
  | fuel + 1, k :: q, seen =>
    if k ∈ seen then collectAux bundle includeDynamic fuel q seen
    else
      let seen1 := seen ++ [k]
      match lookupRoll bundle k with
      | none => collectAux bundle includeDynamic fuel q seen1
      | some cur =>
        if cur.type = str "chunk" then
          let nexts := cur.imports ++ (if includeDynamic then cur.dynamicImports else [])
          let pushes := (nexts.filterMap (fun n => findBundleKey bundle n)).filter
            (fun dk => decide (dk ∉ seen1))
          collectAux bundle includeDynamic fuel (q ++ pushes) seen1
        else collectAux bundle includeDynamic fuel q seen1

/-- An a-priori bound on the number of loop iterations of collectJsDeps:
one per bundle entry plus one per import reference, plus the initial push. -/
def fuelBound (bundle : RollBundle) : Nat :=
  1 + bundle.length +
    (bundle.map (fun e => e.2.imports.length + e.2.dynamicImports.length)).sum

/-- collectJsDeps of index.ts: BFS over the static (and optionally the
dynamic) imports from the entry chunk, entry key removed from the result. -/
def collectJsDeps (entryKey : Str) (bundle : RollBundle) (includeDynamic : Bool) :
    Option (List Str) :=
  match lookupRoll bundle entryKey with
  | none => some []
  | some st =>
    if st.type = str "chunk" then
      (collectAux bundle includeDynamic (fuelBound bundle) [entryKey] []).map
        (fun seen => seen.erase entryKey)
    else some []

theorem word_not_space {c : Char} (h : isWordChar c = true) : isJsSpace c = false := by
  cases hq : isJsSpace c
  · rfl
  · exfalso
    simp only [isJsSpace, Bool.or_eq_true, decide_eq_true_eq] at hq
    rcases hq with ((((rfl | rfl) | rfl) | rfl) | rfl) | rfl <;> exact absurd h (by decide)

theorem word_ne_of {c x : Char} (h : isWordChar c = true) (hx : isWordChar x = false) :
    c ≠ x := by
  intro he
  rw [he, hx] at h
  exact absurd h (by decide)

theorem isPrefixOf_append_self (p r : Str) : p.isPrefixOf (p ++ r) = true :=
  List.isPrefixOf_iff_prefix.mpr (List.prefix_append p r)

theorem takeWhile_app {p : Char → Bool} {a r : Str} (ha : ∀ ch ∈ a, p ch = true)
    (hr : ∀ ch, r.head? = some ch → p ch = false) :
    (a ++ r).takeWhile p = a ∧ (a ++ r).dropWhile p = r := by
  induction a with
  | nil =>
    cases r with
    | nil => simp
    | cons c t =>
      have hc := hr c rfl
      simp [List.takeWhile_cons, List.dropWhile_cons, hc]
  | cons c t ih =>
    have hc := ha c (by simp)
    have iht := ih (fun ch hch => ha ch (by simp [hch]))
    simp [List.takeWhile_cons, List.dropWhile_cons, hc, iht.1, iht.2]

theorem splitBeforeBrace_app {x y : Str} (hx : ∀ ch ∈ x, ch ≠ '\x7d') :
    splitBeforeBrace (x ++ '\x7d' :: y) = some (x, y) := by
  induction x with
  | nil => simp [splitBeforeBrace]
  | cons c t ih =>
    have hc := hx c (by simp)
    have iht := ih (fun ch hch => hx ch (by simp [hch]))
    simp [splitBeforeBrace, hc, iht]

theorem tryAsAt_nonword {s : Str} (h : ∀ ch, s.head? = some ch → isWordChar ch = false) :
    tryAsAt s = none := by
  cases s with
  | nil => rfl
  | cons c t =>
    have hc := h c rfl
    simp [tryAsAt, splitWord, List.takeWhile_cons, hc]

theorem tryImpAsAt_nonspace {s : Str} (h : ∀ ch, s.head? = some ch → isJsSpace ch = false) :
    tryImpAsAt s = none := by
  cases s with
  | nil => rfl
  | cons c t =>
    have hc := h c rfl
    simp [tryImpAsAt, splitSpaces, List.takeWhile_cons, hc]

/-- A nonempty identifier made of [\w$] characters. -/
def wordStr (x : Str) : Prop := x ≠ [] ∧ ∀ ch ∈ x, isWordChar ch = true

instance (x : Str) : Decidable (wordStr x) := by
  unfold wordStr
  infer_instance

theorem exportAsReplaceF_congr :
    ∀ (f1 f2 : Nat) (s : Str), s.length ≤ f1 → s.length ≤ f2 →
      exportAsReplaceF f1 s = exportAsReplaceF f2 s := by
  intro f1
  induction f1 with
  | zero =>
    intro f2 s h1 _
    have hs : s = [] := List.length_eq_zero.mp (Nat.le_zero.mp h1)
    subst hs
    cases f2 <;> rfl
  | succ f1 ih =>
    intro f2 s h1 h2
    cases s with
    | nil => cases f2 <;> rfl
    | cons c t =>
      cases f2 with
      | zero => simp at h2
      | succ f2' =>
        rw [exportAsReplaceF, exportAsReplaceF]
        split
        · next w1 w2 rem heq =>
          have hl := tryAsAt_len heq
          simp only [List.length_cons] at h1 h2 hl
          rw [ih f2' rem (by omega) (by omega)]
        · next heq =>
          simp only [List.length_cons] at h1 h2
          rw [ih f2' t (by omega) (by omega)]

theorem exportAsReplace_nil : exportAsReplace [] = [] := rfl

theorem exportAsReplace_pos {s w1 w2 rem : Str} (h : tryAsAt s = some (w1, w2, rem)) :
    exportAsReplace s = w2 ++ ':' :: (w1 ++ exportAsReplace rem) := by
  cases s with
  | nil => exact absurd h (by simp [tryAsAt, splitWord])
  | cons c t =>
    have hlen := tryAsAt_len h
    simp only [List.length_cons] at hlen
    show exportAsReplaceF (c :: t).length (c :: t) = _
    rw [List.length_cons, exportAsReplaceF]
    split
    · next w1' w2' rem' heq =>
      rw [h] at heq
      simp only [Option.some.injEq, Prod.mk.injEq] at heq
      obtain ⟨rfl, rfl, rfl⟩ := heq
      rw [exportAsReplaceF_congr t.length rem.length rem (by omega) (Nat.le_refl _)]
      rfl
    · next heq =>
      rw [h] at heq
      exact absurd heq (by simp)

theorem exportAsReplace_neg {c : Char} {t : Str} (h : tryAsAt (c :: t) = none) :
    exportAsReplace (c :: t) = c :: exportAsReplace t := by
  show exportAsReplaceF (c :: t).length (c :: t) = _
  rw [List.length_cons, exportAsReplaceF]
  split
  · next w1' w2' rem' heq =>
    rw [h] at heq
    exact absurd heq (by simp)
  · rfl

theorem importAsReplaceF_congr :
    ∀ (f1 f2 : Nat) (s : Str), s.length ≤ f1 → s.length ≤ f2 →
      importAsReplaceF f1 s = importAsReplaceF f2 s := by
  intro f1
  induction f1 with
  | zero =>
    intro f2 s h1 _
    have hs : s = [] := List.length_eq_zero.mp (Nat.le_zero.mp h1)
    subst hs
    cases f2 <;> rfl
  | succ f1 ih =>
    intro f2 s h1 h2
    cases s with
    | nil => cases f2 <;> rfl
    | cons c t =>
      cases f2 with
      | zero => simp at h2
      | succ f2' =>
        rw [importAsReplaceF, importAsReplaceF]
        split
        · next rem heq =>
          have hl := tryImpAsAt_len heq
          simp only [List.length_cons] at h1 h2 hl
          rw [ih f2' rem (by omega) (by omega)]
        · next heq =>
          simp only [List.length_cons] at h1 h2
          rw [ih f2' t (by omega) (by omega)]

theorem importAsReplace_nil : importAsReplace [] = [] := rfl

theorem importAsReplace_pos {s rem : Str} (h : tryImpAsAt s = some rem) :
    importAsReplace s = ':' :: importAsReplace rem := by
  cases s with
  | nil => exact absurd h (by simp [tryImpAsAt, splitSpaces])
  | cons c t =>
    have hlen := tryImpAsAt_len h
    simp only [List.length_cons] at hlen
    show importAsReplaceF (c :: t).length (c :: t) = _
    rw [List.length_cons, importAsReplaceF]
    split
    · next rem' heq =>
      rw [h] at heq
      simp only [Option.some.injEq] at heq
      subst heq
      rw [importAsReplaceF_congr t.length rem.length rem (by omega) (Nat.le_refl _)]
      rfl
    · next heq =>
      rw [h] at heq
      exact absurd heq (by simp)

theorem importAsReplace_neg {c : Char} {t : Str} (h : tryImpAsAt (c :: t) = none) :
    importAsReplace (c :: t) = c :: importAsReplace t := by
  show importAsReplaceF (c :: t).length (c :: t) = _
  rw [List.length_cons, importAsReplaceF]
  split
  · next rem' heq =>
    rw [h] at heq
    exact absurd heq (by simp)
  · rfl

theorem export2ReturnF_congr :
    ∀ (f1 f2 : Nat) (s : Str), s.length ≤ f1 → s.length ≤ f2 →
      export2ReturnF f1 s = export2ReturnF f2 s := by
  intro f1
  induction f1 with
  | zero =>
    intro f2 s h1 _
    have hs : s = [] := List.length_eq_zero.mp (Nat.le_zero.mp h1)
    subst hs
    cases f2 <;> rfl
  | succ f1 ih =>
    intro f2 s h1 h2
    cases s with
    | nil => cases f2 <;> rfl
    | cons c t =>
      cases f2 with
      | zero => simp at h2
      | succ f2' =>
        rw [export2ReturnF, export2ReturnF]
        split
        · rfl
        · next heq =>
          simp only [List.length_cons] at h1 h2
          rw [ih f2' t (by omega) (by omega)]

theorem export2Return_nil : export2Return [] = [] := rfl

theorem export2Return_pos {s inner rem : Str} (h : tryExportAt s = some (inner, rem)) :
    export2Return s = str "return\x7b" ++ exportAsReplace inner ++ str "\x7d;" ++ rem := by
  cases s with
  | nil => exact absurd h (by simp [tryExportAt, str])
  | cons c t =>
    show export2ReturnF (c :: t).length (c :: t) = _
    rw [List.length_cons, export2ReturnF]
    split
    · next inner' rem' heq =>
      rw [h] at heq
      simp only [Option.some.injEq, Prod.mk.injEq] at heq
      obtain ⟨rfl, rfl⟩ := heq
      rfl
    · next heq =>
      rw [h] at heq
      exact absurd heq (by simp)

theorem export2Return_neg {c : Char} {t : Str} (h : tryExportAt (c :: t) = none) :
    export2Return (c :: t) = c :: export2Return t := by
  show export2ReturnF (c :: t).length (c :: t) = _
  rw [List.length_cons, export2ReturnF]
  split
  · next inner' rem' heq =>
    rw [h] at heq
    exact absurd heq (by simp)
  · rfl

theorem isEmpty_false_of_ne {x : Str} (h : x ≠ []) : x.isEmpty = false := by
  cases x with
  | nil => exact absurd rfl h
  | cons c t => rfl

theorem splitWord_app {a r : Str} (ha : wordStr a)
    (hr : ∀ ch, r.head? = some ch → isWordChar ch = false) :
    splitWord (a ++ r) = some (a, r) := by
  have t := takeWhile_app (p := isWordChar) ha.2 hr
  simp [splitWord, t.1, t.2, isEmpty_false_of_ne ha.1]

theorem splitSpaces_one {r : Str} (hr : ∀ ch, r.head? = some ch → isJsSpace ch = false) :
    splitSpaces (' ' :: r) = some ([' '], r) := by
  have t := takeWhile_app (p := isJsSpace) (a := [' ']) (r := r)
    (by intro ch hch; simp at hch; subst hch; decide) hr
  simp only [List.singleton_append] at t
  simp [splitSpaces, t.1, t.2]

theorem head_not_word_of_word {b : Str} (hb : wordStr b) :
    ∀ ch, b.head? = some ch → isJsSpace ch = false := by
  obtain ⟨b0, b', rfl⟩ := List.exists_cons_of_ne_nil hb.1
  intro ch hch
  simp only [List.head?_cons, Option.some.injEq] at hch
  subst hch
  exact word_not_space (hb.2 b0 (by simp))

theorem head_app_not_word_of_word {b r : Str} (hb : wordStr b) :
    ∀ ch, (b ++ r).head? = some ch → isJsSpace ch = false := by
  obtain ⟨b0, b', rfl⟩ := List.exists_cons_of_ne_nil hb.1
  intro ch hch
  simp only [List.cons_append, List.head?_cons, Option.some.injEq] at hch
  subst hch
  exact word_not_space (hb.2 b0 (by simp))

theorem tryAsAt_compute {a b r : Str} (ha : wordStr a) (hb : wordStr b)
    (hr : ∀ ch, r.head? = some ch → isWordChar ch = false) :
    tryAsAt (a ++ ' ' :: 'a' :: 's' :: ' ' :: (b ++ r)) = some (a, b, r) := by
  have s1 : splitWord (a ++ ' ' :: 'a' :: 's' :: ' ' :: (b ++ r)) =
      some (a, ' ' :: 'a' :: 's' :: ' ' :: (b ++ r)) :=
    splitWord_app ha (by intro ch hch; simp at hch; subst hch; decide)
  have s2 : splitSpaces (' ' :: 'a' :: 's' :: ' ' :: (b ++ r)) =
      some ([' '], 'a' :: 's' :: ' ' :: (b ++ r)) :=
    splitSpaces_one (by intro ch hch; simp at hch; subst hch; decide)
  have s3 : splitSpaces (' ' :: (b ++ r)) = some ([' '], b ++ r) :=
    splitSpaces_one (head_app_not_word_of_word hb)
  have s4 : splitWord (b ++ r) = some (b, r) := splitWord_app hb hr
  have hpre : (str "as").isPrefixOf ('a' :: 's' :: ' ' :: (b ++ r)) = true := by
    simp [str, List.isPrefixOf]
  have hdrop : ('a' :: 's' :: ' ' :: (b ++ r)).drop 2 = ' ' :: (b ++ r) := rfl
  have hpre2 := List.isPrefixOf_iff_prefix.mp hpre
  simp [tryAsAt, s1, s2, s3, s4, hpre, hpre2, hdrop]

theorem exportAsReplace_word_space {x : Str} (hx : ∀ ch ∈ x, isWordChar ch = true) :
    exportAsReplace (x ++ [' ']) = x ++ [' '] := by
  induction x with
  | nil =>
    simp only [List.nil_append]
    rw [exportAsReplace_neg (tryAsAt_nonword (by intro ch hch; simp at hch; subst hch; decide))]
    rw [exportAsReplace_nil]
  | cons c t ih =>
    have hne : tryAsAt ((c :: t) ++ [' ']) = none := by
      have s1 : splitWord ((c :: t) ++ [' ']) = some (c :: t, [' ']) :=
        splitWord_app ⟨by simp, hx⟩
          (by intro ch hch; simp at hch; subst hch; decide)
      have s2 : splitSpaces [' '] = some ([' '], []) := by decide
      unfold tryAsAt
      rw [s1, Option.some_bind]
      show (splitSpaces [' ']).bind _ = none
      rw [s2, Option.some_bind]
      show (if (str "as").isPrefixOf [] = true then _ else none) = none
      rw [if_neg (by decide)]
    rw [List.cons_append] at hne ⊢
    rw [exportAsReplace_neg hne, ih (fun ch hch => hx ch (by simp [hch]))]

theorem exportAsReplace_clause {a b c : Str} (ha : wordStr a) (hb : wordStr b)
    (hc : wordStr c) :
    exportAsReplace (' ' :: (a ++ ' ' :: 'a' :: 's' :: ' ' ::
        (b ++ ',' :: ' ' :: (c ++ [' '])))) =
      ' ' :: (b ++ ':' :: (a ++ ',' :: ' ' :: (c ++ [' ']))) := by
  rw [exportAsReplace_neg (tryAsAt_nonword
    (by intro ch hch; simp at hch; subst hch; decide))]
  rw [exportAsReplace_pos (tryAsAt_compute ha hb
    (by intro ch hch; simp at hch; subst hch; decide))]
  rw [exportAsReplace_neg (tryAsAt_nonword
    (by intro ch hch; simp at hch; subst hch; decide))]
  rw [exportAsReplace_neg (tryAsAt_nonword
    (by intro ch hch; simp at hch; subst hch; decide))]
  rw [exportAsReplace_word_space hc.2]

theorem tryExportAt_compute {E y : Str} (hE : E ≠ []) (hbr : ∀ ch ∈ E, ch ≠ '\x7d') :
    tryExportAt (str "export" ++ '\x7b' :: (E ++ '\x7d' :: ';' :: y)) = some (E, y) := by
  obtain ⟨e0, E', rfl⟩ := List.exists_cons_of_ne_nil hE
  have hpre := isPrefixOf_append_self (str "export") ('\x7b' :: ((e0 :: E') ++ '\x7d' :: ';' :: y))
  have hdrop : (str "export" ++ '\x7b' :: ((e0 :: E') ++ '\x7d' :: ';' :: y)).drop 6 =
      '\x7b' :: ((e0 :: E') ++ '\x7d' :: ';' :: y) := by
    have h6 : (str "export").length = 6 := rfl
    rw [← h6, List.drop_left]
  have hsb : splitBeforeBrace (E' ++ '\x7d' :: ';' :: y) = some (E', ';' :: y) :=
    splitBeforeBrace_app (fun ch hch => hbr ch (by simp [hch]))
  unfold tryExportAt
  rw [if_pos hpre, hdrop, List.dropWhile_cons, if_neg (by decide)]
  show (splitBeforeBrace (E' ++ '\x7d' :: ';' :: y)).map _ = _
  rw [hsb, Option.map_some']
  show some (e0 :: E', _) = _
  rw [List.dropWhile_cons, if_neg (by decide)]
  rfl

def hasExportMatch : Str → Bool
  | [] => false
  | c :: t => (tryExportAt (c :: t)).isSome || hasExportMatch t

theorem export2Return_id_of_no_match : ∀ {s : Str}, hasExportMatch s = false →
    export2Return s = s := by
  intro s
  induction s with
  | nil => intro _; exact export2Return_nil
  | cons c t ih =>
    intro h
    simp only [hasExportMatch, Bool.or_eq_false_iff] at h
    cases htry : tryExportAt (c :: t) with
    | some p => rw [htry] at h; simp at h
    | none => rw [export2Return_neg htry, ih h.2]

theorem hasSub_cons_false {c : Char} {t pat : Str} (h : hasSub (c :: t) pat = false) :
    pat.isPrefixOf (c :: t) = false ∧ hasSub t pat = false := by
  cases hb : pat.isPrefixOf (c :: t) with
  | true =>
    rw [hasSub.eq_def, if_pos hb] at h
    exact absurd h (by simp)
  | false =>
    rw [hasSub.eq_def, if_neg (by simp [hb])] at h
    exact ⟨rfl, h⟩

theorem hasSub_of_split {pat : Str} :
    ∀ (P1 P2 : Str), pat.isPrefixOf P2 = true → hasSub (P1 ++ P2) pat = true := by
  intro P1
  induction P1 with
  | nil =>
    intro P2 h
    rw [List.nil_append, hasSub.eq_def, if_pos h]
  | cons c t ih =>
    intro P2 h
    by_cases hp : pat.isPrefixOf ((c :: t) ++ P2) = true
    · rw [List.cons_append, hasSub.eq_def, if_pos (by rw [← List.cons_append]; exact hp)]
    · rw [List.cons_append, hasSub.eq_def, if_neg (by rw [← List.cons_append]; exact hp)]
      exact ih P2 h

theorem export_straddle : ∀ (P2 Y : Str), P2 ≠ [] →
    (str "export").isPrefixOf (P2 ++ (str "export" ++ Y)) = true →
    (str "export").isPrefixOf P2 = true := by
  intro P2 Y h2 hpre
  match P2, h2 with
  | [c1], _ => simp [str, List.isPrefixOf] at hpre
  | [c1, c2], _ => simp [str, List.isPrefixOf] at hpre
  | [c1, c2, c3], _ => simp [str, List.isPrefixOf] at hpre
  | [c1, c2, c3, c4], _ => simp [str, List.isPrefixOf] at hpre
  | [c1, c2, c3, c4, c5], _ => simp [str, List.isPrefixOf] at hpre
  | c1 :: c2 :: c3 :: c4 :: c5 :: c6 :: t, _ =>
    simp [str, List.isPrefixOf] at hpre ⊢
    exact hpre

theorem e2r_skip : ∀ (P Y : Str), hasSub P (str "export") = false →
    export2Return (P ++ (str "export" ++ Y)) = P ++ export2Return (str "export" ++ Y) := by
  intro P
  induction P with
  | nil => intro Y _; simp
  | cons c P' ih =>
    intro Y hP
    have hparts := hasSub_cons_false hP
    have hnone : tryExportAt ((c :: P') ++ (str "export" ++ Y)) = none := by
      by_cases hq : (str "export").isPrefixOf ((c :: P') ++ (str "export" ++ Y)) = true
      · have hst := export_straddle (c :: P') Y (by simp) hq
        simp [hparts.1] at hst
      · unfold tryExportAt
        rw [if_neg hq]
    rw [List.cons_append] at hnone ⊢
    rw [export2Return_neg hnone, ih Y hparts.2]
    rfl

/-- Split an object-literal body at its commas (the produced clauses contain
no nested braces, so plain splitting interprets the literal). -/
def splitComma : Str → List Str
  | [] => [[]]
  | c :: t =>
    if c = ',' then [] :: splitComma t
    else
      match splitComma t with
      | [] => [[c]]
      | h :: r => (c :: h) :: r

/-- Split a property at its first colon, when one is present. -/
def splitColon : Str → Option (Str × Str)
  | [] => none
  | c :: t =>
    if c = ':' then some ([], t)
    else (splitColon t).map (fun p => (c :: p.1, p.2))

/-- The (key, value) denoted by one property of a JS object literal:
key: value for a colon property, and the shorthand x standing for x: x. -/
def entryOf (e : Str) : Str × Str :=
  match splitColon (trimStr e) with
  | some p => (trimStr p.1, trimStr p.2)
  | none => (trimStr e, trimStr e)

/-- The (key, value) pairs denoted by a JS object-literal body. -/
def objEntries (inner : Str) : List (Str × Str) := (splitComma inner).map entryOf

theorem splitComma_no {x : Str} (hx : ∀ ch ∈ x, ch ≠ ',') : splitComma x = [x] := by
  induction x with
  | nil => rfl
  | cons c t ih =>
    have hc := hx c (by simp)
    rw [splitComma, if_neg hc, ih (fun ch hch => hx ch (by simp [hch]))]

theorem splitComma_app {x y : Str} (hx : ∀ ch ∈ x, ch ≠ ',') :
    splitComma (x ++ ',' :: y) = x :: splitComma y := by
  induction x with
  | nil => simp [splitComma]
  | cons c t ih =>
    have hc := hx c (by simp)
    rw [List.cons_append, splitComma, if_neg hc,
      ih (fun ch hch => hx ch (by simp [hch]))]

theorem splitColon_none {x : Str} (hx : ∀ ch ∈ x, ch ≠ ':') : splitColon x = none := by
  induction x with
  | nil => rfl
  | cons c t ih =>
    have hc := hx c (by simp)
    rw [splitColon, if_neg hc, ih (fun ch hch => hx ch (by simp [hch]))]
    rfl

theorem splitColon_app {x y : Str} (hx : ∀ ch ∈ x, ch ≠ ':') :
    splitColon (x ++ ':' :: y) = some (x, y) := by
  induction x with
  | nil => simp [splitColon]
  | cons c t ih =>
    have hc := hx c (by simp)
    rw [List.cons_append, splitColon, if_neg hc,
      ih (fun ch hch => hx ch (by simp [hch]))]
    rfl

theorem dropWhile_eq_self_of_head {p : Char → Bool} {x : Str}
    (h : ∀ ch, x.head? = some ch → p ch = false) : x.dropWhile p = x := by
  cases x with
  | nil => rfl
  | cons c t =>
    have hc := h c rfl
    simp [List.dropWhile_cons, hc]

theorem trimStr_eq_self {x : Str}
    (h1 : ∀ ch, x.head? = some ch → isJsSpace ch = false)
    (h2 : ∀ ch, x.reverse.head? = some ch → isJsSpace ch = false) : trimStr x = x := by
  unfold trimStr
  rw [dropWhile_eq_self_of_head h1, dropWhile_eq_self_of_head h2, List.reverse_reverse]

theorem trimStr_cons_space {x : Str} : trimStr (' ' :: x) = trimStr x := by
  unfold trimStr
  rw [List.dropWhile_cons, if_pos (by decide)]

theorem trimStr_word {x : Str} (hx : wordStr x) : trimStr x = x := by
  apply trimStr_eq_self (head_not_word_of_word hx)
  intro ch hch
  have hrev : x.reverse ≠ [] := by
    intro hnil
    exact hx.1 (by simpa using congrArg List.reverse hnil)
  obtain ⟨c0, r0, hr⟩ := List.exists_cons_of_ne_nil hrev
  rw [hr] at hch
  simp only [List.head?_cons, Option.some.injEq] at hch
  subst hch
  have hmem : c0 ∈ x := by
    have h0 : c0 ∈ x.reverse := by rw [hr]; simp
    simpa using h0
  exact word_not_space (hx.2 c0 hmem)

theorem importAsReplace_copy {x r : Str} (hx : ∀ ch ∈ x, isJsSpace ch = false) :
    importAsReplace (x ++ r) = x ++ importAsReplace r := by
  induction x with
  | nil => simp
  | cons c t ih =>
    rw [List.cons_append,
      importAsReplace_neg (tryImpAsAt_nonspace
        (by intro ch hch
            simp only [List.head?_cons, Option.some.injEq] at hch
            subst hch
            exact hx c (by simp))),
      ih (fun ch hch => hx ch (by simp [hch]))]
    rfl

theorem tryImpAsAt_compute {z : Str} (hz : ∀ ch, z.head? = some ch → isJsSpace ch = false) :
    tryImpAsAt (' ' :: 'a' :: 's' :: ' ' :: z) = some z := by
  have s1 : splitSpaces (' ' :: 'a' :: 's' :: ' ' :: z) =
      some ([' '], 'a' :: 's' :: ' ' :: z) :=
    splitSpaces_one (by intro ch hch; simp at hch; subst hch; decide)
  have s2 : splitSpaces (' ' :: z) = some ([' '], z) := splitSpaces_one hz
  unfold tryImpAsAt
  rw [s1, Option.some_bind]
  show (if (str "as").isPrefixOf ('a' :: 's' :: ' ' :: z) = true then _ else none) = _
  rw [if_pos (by simp [str, List.isPrefixOf])]
  show (splitSpaces (' ' :: z)).map _ = _
  rw [s2, Option.map_some']

theorem rev_head_word {a : Str} (ha : wordStr a) :
    ∀ ch, a.reverse.head? = some ch → isJsSpace ch = false := by
  intro ch hch
  have hrev : a.reverse ≠ [] := by
    intro hnil
    exact ha.1 (by simpa using congrArg List.reverse hnil)
  obtain ⟨c0, r0, hr⟩ := List.exists_cons_of_ne_nil hrev
  rw [hr] at hch
  simp only [List.head?_cons, Option.some.injEq] at hch
  subst hch
  have hmem : c0 ∈ a := by
    have h0 : c0 ∈ a.reverse := by rw [hr]; simp
    simpa using h0
  exact word_not_space (ha.2 c0 hmem)

theorem rev_head_app_word {pre a : Str} (ha : wordStr a) :
    ∀ ch, ((pre ++ a).reverse).head? = some ch → isJsSpace ch = false := by
  intro ch hch
  rw [List.reverse_append] at hch
  have hrev : a.reverse ≠ [] := by
    intro hnil
    exact ha.1 (by simpa using congrArg List.reverse hnil)
  obtain ⟨c0, r0, hr⟩ := List.exists_cons_of_ne_nil hrev
  rw [hr, List.cons_append] at hch
  simp only [List.head?_cons, Option.some.injEq] at hch
  subst hch
  have hmem : c0 ∈ a := by
    have h0 : c0 ∈ a.reverse := by rw [hr]; simp
    simpa using h0
  exact word_not_space (ha.2 c0 hmem)

theorem entryOf_colon {b a : Str} (hb : wordStr b) (ha : wordStr a) :
    entryOf (' ' :: (b ++ ':' :: a)) = (b, a) := by
  unfold entryOf
  rw [trimStr_cons_space]
  have ht : trimStr (b ++ ':' :: a) = b ++ ':' :: a := by
    apply trimStr_eq_self (head_app_not_word_of_word hb)
    have hsh : b ++ ':' :: a = (b ++ [':']) ++ a := by simp
    rw [hsh]
    exact rev_head_app_word ha
  rw [ht, splitColon_app (fun ch hch => word_ne_of (hb.2 ch hch) (by decide))]
  show (trimStr b, trimStr a) = (b, a)
  rw [trimStr_word hb, trimStr_word ha]

theorem entryOf_shorthand {c : Str} (hc : wordStr c) :
    entryOf (' ' :: (c ++ [' '])) = (c, c) := by
  unfold entryOf
  rw [trimStr_cons_space]
  have ht : trimStr (c ++ [' ']) = c := by
    unfold trimStr
    rw [dropWhile_eq_self_of_head (head_app_not_word_of_word hc), List.reverse_append]
    show ((' ' :: c.reverse).dropWhile isJsSpace).reverse = c
    rw [List.dropWhile_cons, if_pos (by decide),
      dropWhile_eq_self_of_head (rev_head_word hc), List.reverse_reverse]
  rw [ht, splitColon_none (fun ch hch => word_ne_of (hc.2 ch hch) (by decide))]

theorem objEntries_clause {a b c : Str} (ha : wordStr a) (hb : wordStr b)
    (hc : wordStr c) :
    objEntries (' ' :: (b ++ ':' :: (a ++ ',' :: ' ' :: (c ++ [' '])))) = [(b, a), (c, c)] := by
  have hx : ∀ ch ∈ ' ' :: (b ++ ':' :: a), ch ≠ ',' := by
    intro ch hch
    simp at hch
    rcases hch with rfl | hch | rfl | hch
    · decide
    · exact word_ne_of (hb.2 ch hch) (by decide)
    · decide
    · exact word_ne_of (ha.2 ch hch) (by decide)
  have hy : ∀ ch ∈ ' ' :: (c ++ [' ']), ch ≠ ',' := by
    intro ch hch
    simp at hch
    rcases hch with rfl | hch | rfl
    · decide
    · exact word_ne_of (hc.2 ch hch) (by decide)
    · decide
  have hsc := splitComma_app (x := ' ' :: (b ++ ':' :: a)) (y := ' ' :: (c ++ [' '])) hx
  have hshape : (' ' :: (b ++ ':' :: a)) ++ ',' :: (' ' :: (c ++ [' '])) =
      ' ' :: (b ++ ':' :: (a ++ ',' :: ' ' :: (c ++ [' ']))) := by simp
  rw [hshape] at hsc
  rw [objEntries, hsc, splitComma_no hy]
  simp only [List.map]
  rw [entryOf_colon hb ha, entryOf_shorthand hc]

/-- Claim C3, counterexample: a chunk whose code has no export clause is NOT
rewritten to a wrapper returning the empty object: export2Return leaves the
body unchanged and appends no return statement at all, so the IIFE built
around it by getJsChunkData evaluates to undefined rather than to the empty
object (the claim, read against the rewriter, requires a return of an empty
object literal to be appended). -/
theorem C3_counterexample :
    export2Return (str "console.log(1);") = str "console.log(1);"
    ∧ hasSub (export2Return (str "console.log(1);")) (str "return") = false := by
  constructor
  · decide
  · decide

/-- Claim C3 (amended): for every chunk whose code contains no match of the
export-clause pattern, the rewriter leaves the body unchanged — no return
statement is appended, so the wrapper's namespace value is undefined, not
the empty object; the rewrite itself does not throw and emits no warning. -/
theorem C3_no_export_left_unchanged {s : Str} (h : hasExportMatch s = false) :
    export2Return s = s :=
  export2Return_id_of_no_match h

/-- Witness for C3 at a concrete export-free chunk body. -/
theorem C3_no_export_left_unchanged_witness :
    export2Return (str "const x=1;console.log(x);") = str "const x=1;console.log(x);" :=
  C3_no_export_left_unchanged (by decide)

/-- Claim C5: for every chunk with consolidated export clause
export\x7b a as b, c \x7d; at the end of its body (the body before it
containing no other occurrence of export), export2Return rewrites the body
to end with return\x7b b:a, c \x7d;, and the entries of that object literal
are [(b, a), (c, c)]: for the aliased specifier the exported-facing name b
is the key and the local name a the value, and the unaliased name c maps to
itself through JS shorthand. -/
theorem C5_export_object_literal (P a b c : Str)
    (hP : hasSub P (str "export") = false)
    (ha : wordStr a) (hb : wordStr b) (hc : wordStr c) :
    export2Return (P ++ (str "export" ++ '\x7b' ::
        ((' ' :: (a ++ ' ' :: 'a' :: 's' :: ' ' :: (b ++ ',' :: ' ' :: (c ++ [' '])))) ++
          '\x7d' :: ';' :: []))) =
      P ++ (str "return" ++ '\x7b' ::
        ((' ' :: (b ++ ':' :: (a ++ ',' :: ' ' :: (c ++ [' '])))) ++ '\x7d' :: ';' :: []))
    ∧ objEntries (' ' :: (b ++ ':' :: (a ++ ',' :: ' ' :: (c ++ [' '])))) = [(b, a), (c, c)] := by
  constructor
  · have hE : (' ' :: (a ++ ' ' :: 'a' :: 's' :: ' ' ::
        (b ++ ',' :: ' ' :: (c ++ [' '])))) ≠ [] := by simp
    have hbr : ∀ ch ∈ (' ' :: (a ++ ' ' :: 'a' :: 's' :: ' ' ::
        (b ++ ',' :: ' ' :: (c ++ [' '])))), ch ≠ '\x7d' := by
      intro ch hch he
      subst he
      simp at hch
      rcases hch with h | h | h
      · exact absurd (ha.2 _ h) (by decide)
      · exact absurd (hb.2 _ h) (by decide)
      · exact absurd (hc.2 _ h) (by decide)
    rw [e2r_skip P _ hP]
    congr 1
    rw [export2Return_pos (tryExportAt_compute hE hbr)]
    rw [exportAsReplace_clause ha hb hc]
    have h1 : str "return\x7b" = str "return" ++ ['\x7b'] := rfl
    have h2 : str "\x7d;" = ['\x7d', ';'] := rfl
    simp [h1, h2]
  · exact objEntries_clause ha hb hc

/-- Witness for C5 at concrete identifiers and a concrete preceding body. -/
theorem C5_export_object_literal_witness :
    export2Return (str "const foo=1;const baz=2;" ++ (str "export" ++ '\x7b' ::
        ((' ' :: (str "foo" ++ ' ' :: 'a' :: 's' :: ' ' ::
          (str "bar" ++ ',' :: ' ' :: (str "baz" ++ [' '])))) ++ '\x7d' :: ';' :: []))) =
      str "const foo=1;const baz=2;" ++ (str "return" ++ '\x7b' ::
        ((' ' :: (str "bar" ++ ':' :: (str "foo" ++ ',' :: ' ' :: (str "baz" ++ [' '])))) ++
          '\x7d' :: ';' :: []))
    ∧ objEntries (' ' :: (str "bar" ++ ':' ::
        (str "foo" ++ ',' :: ' ' :: (str "baz" ++ [' ']))))
      = [(str "bar", str "foo"), (str "baz", str "baz")] :=
  C5_export_object_literal (str "const foo=1;const baz=2;") (str "foo") (str "bar")
    (str "baz") (by decide) (by decide) (by decide) (by decide)

theorem importReFind_pos {s cap : Str} (h : tryImportReAt s = some cap) :
    importReFind s = some cap := by
  cases s with
  | nil => exact absurd h (by simp [tryImportReAt, str, List.isPrefixOf])
  | cons c t =>
    rw [importReFind]
    split <;> simp_all

theorem tryImportReAt_compute {a b rest : Str} (ha : wordStr a) (hb : wordStr b) :
    tryImportReAt (str "import" ++ '\x7b' ::
        (a ++ ' ' :: 'a' :: 's' :: ' ' :: (b ++ '\x7d' :: rest)))
      = some ('\x7b' :: (a ++ ' ' :: 'a' :: 's' :: ' ' :: (b ++ ['\x7d']))) := by
  obtain ⟨a0, a', rfl⟩ := List.exists_cons_of_ne_nil ha.1
  have hpre := isPrefixOf_append_self (str "import")
    ('\x7b' :: ((a0 :: a') ++ ' ' :: 'a' :: 's' :: ' ' :: (b ++ '\x7d' :: rest)))
  have hdrop : (str "import" ++ '\x7b' ::
      ((a0 :: a') ++ ' ' :: 'a' :: 's' :: ' ' :: (b ++ '\x7d' :: rest))).drop 6 =
      '\x7b' :: ((a0 :: a') ++ ' ' :: 'a' :: 's' :: ' ' :: (b ++ '\x7d' :: rest)) := by
    have h6 : (str "import").length = 6 := rfl
    rw [← h6, List.drop_left]
  have hx : ∀ ch ∈ a' ++ ' ' :: 'a' :: 's' :: ' ' :: b, ch ≠ '\x7d' := by
    intro ch hch he
    subst he
    simp at hch
    rcases hch with h | h
    · exact absurd (ha.2 '\x7d' (by simp [h])) (by decide)
    · exact absurd (hb.2 '\x7d' h) (by decide)
  have hsb : splitBeforeBrace (a' ++ ' ' :: 'a' :: 's' :: ' ' :: (b ++ '\x7d' :: rest)) =
      some (a' ++ ' ' :: 'a' :: 's' :: ' ' :: b, rest) := by
    have hshape : a' ++ ' ' :: 'a' :: 's' :: ' ' :: (b ++ '\x7d' :: rest) =
        (a' ++ ' ' :: 'a' :: 's' :: ' ' :: b) ++ '\x7d' :: rest := by simp
    rw [hshape]
    exact splitBeforeBrace_app hx
  unfold tryImportReAt
  rw [if_pos hpre, hdrop, List.dropWhile_cons, if_neg (by decide)]
  show (splitBeforeBrace (a' ++ ' ' :: 'a' :: 's' :: ' ' :: (b ++ '\x7d' :: rest))).map _ = _
  rw [hsb, Option.map_some']
  simp

theorem import2Const_compute {a b rest : Str} (ha : wordStr a) (hb : wordStr b) :
    import2Const (str "import" ++ '\x7b' ::
        (a ++ ' ' :: 'a' :: 's' :: ' ' :: (b ++ '\x7d' :: rest)))
      = some ('\x7b' :: (a ++ ':' :: (b ++ ['\x7d']))) := by
  unfold import2Const
  rw [importReFind_pos (tryImportReAt_compute ha hb), Option.map_some']
  have hnospace : ∀ ch ∈ '\x7b' :: a, isJsSpace ch = false := by
    intro ch hch
    rcases List.mem_cons.mp hch with rfl | h
    · decide
    · exact word_not_space (ha.2 ch h)
  have hshape : '\x7b' :: (a ++ ' ' :: 'a' :: 's' :: ' ' :: (b ++ ['\x7d'])) =
      ('\x7b' :: a) ++ ' ' :: 'a' :: 's' :: ' ' :: (b ++ ['\x7d']) := by simp
  rw [hshape, importAsReplace_copy hnospace,
    importAsReplace_pos (tryImpAsAt_compute (head_app_not_word_of_word hb))]
  have hnospace2 : ∀ ch ∈ b ++ ['\x7d'], isJsSpace ch = false := by
    intro ch hch
    rcases List.mem_append.mp hch with h | h
    · exact word_not_space (hb.2 ch h)
    · simp at h; subst h; decide
  have happ : importAsReplace (b ++ ['\x7d']) = b ++ ['\x7d'] := by
    have := importAsReplace_copy (r := []) hnospace2
    simpa [importAsReplace_nil] using this
  rw [happ]
  simp

/-- Claim C6 (amended): an import statement import\x7ba as b\x7dfrom"...";
that resolves to a chunk of the bundle is rewritten by getJsChunkData into
const \x7ba:b\x7d=(()=>\x7b ... \x7d)(); — a const destructuring declaration
whose property key is the imported name a and whose binding is the local
alias b (the alias direction as written), with the chunk's cleaned body
wrapped in an eagerly-invoked closure.  One such wrapper is produced per
importing statement, so it executes exactly once only when a single
importing statement references the chunk (see the counterexample for the
duplicated case). -/
theorem C6_import_destructuring_iife (a b rest nm key code : Str) (jsKeys : List Str)
    (bundle : OutBundle) (rc : Bool)
    (ha : wordStr a) (hb : wordStr b)
    (hk : findKey jsKeys nm = some key)
    (hit : lookupItem bundle key = some (BundleItem.chunk code)) :
    getJsChunkData
        (str "import" ++ '\x7b' :: (a ++ ' ' :: 'a' :: 's' :: ' ' :: (b ++ '\x7d' :: rest)))
        nm jsKeys bundle rc
      = some (str "import" ++ '\x7b' :: (a ++ ' ' :: 'a' :: 's' :: ' ' :: (b ++ '\x7d' :: rest)),
          str "const " ++ ('\x7b' :: (a ++ ':' :: (b ++ ['\x7d']))) ++ str "=(()=>\x7b" ++
            export2Return (cleanJs rc code) ++ str "\x7d)();",
          key) := by
  unfold getJsChunkData
  simp only [hk, hit, BundleItem.codeText, import2Const_compute ha hb]

/-- Witness for the amended C6 at concrete names and a concrete bundle. -/
theorem C6_import_destructuring_iife_witness :
    getJsChunkData
        (str "import" ++ '\x7b' :: (str "a" ++ ' ' :: 'a' :: 's' :: ' ' ::
          (str "b" ++ '\x7d' :: str "from\"x.js\";")))
        (str "x.js") [str "x.js"] [(str "x.js", BundleItem.chunk (str "const a=1;"))] true
      = some (str "import" ++ '\x7b' :: (str "a" ++ ' ' :: 'a' :: 's' :: ' ' ::
            (str "b" ++ '\x7d' :: str "from\"x.js\";")),
          str "const " ++ ('\x7b' :: (str "a" ++ ':' :: (str "b" ++ ['\x7d']))) ++
            str "=(()=>\x7b" ++
            export2Return (cleanJs true (str "const a=1;")) ++ str "\x7d)();",
          str "x.js") :=
  C6_import_destructuring_iife (str "a") (str "b") (str "from\"x.js\";") (str "x.js")
    (str "x.js") (str "const a=1;") [str "x.js"]
    [(str "x.js", BundleItem.chunk (str "const a=1;"))] true
    (by decide) (by decide) (by decide) (by decide)

/-- Bundle with a transitive dependency: the entry imports a.js, which in
turn imports b.js. -/
def c1Bundle : OutBundle :=
  [ (str "index.html", .asset (str "<script src=\"main.js\"></script>")),
    (str "main.js", .chunk (str "import\x7ba\x7dfrom\"a.js\";console.log(a);")),
    (str "a.js", .chunk (str "import\x7bb\x7dfrom\"b.js\";const a=b;export\x7ba\x7d;")),
    (str "b.js", .chunk (str "const b=1;export\x7bb\x7d;")) ]

/-- Claim C1, evaluation at the failing input: with main.js importing a.js
and a.js importing b.js, the pass deletes only main.js and a.js; b.js —
though transitively statically imported by the entry — is left in the
bundle, and a.js's own import statement for b.js survives verbatim inside
the assembled script, so the transitive chunk is never inlined.  This
contradicts the claim (and getJsData's own doc comment, which promises to
recursively inline all dependencies). -/
theorem C1_transitive_dep_not_inlined :
    ((generateBundle c1Bundle true).map fun r => r.2.1) = some [str "main.js", str "a.js"]
    ∧ ((generateBundle c1Bundle true).map fun r => r.1.map Prod.fst)
        = some [str "index.html", str "b.js"]
    ∧ ((generateBundle c1Bundle true).map fun r =>
          (lookupItem r.1 (str "index.html")).map fun i =>
            i.sourceText.map fun h => hasSub h (str "import\x7bb\x7dfrom\"b.js\";"))
        = some (some (some true)) := by
  refine ⟨by decide, by decide, by decide⟩

/-- Bundle whose entry imports a module with no matching chunk. -/
def c2Bundle : OutBundle :=
  [ (str "index.html", .asset (str "<script src=\"main.js\"></script>")),
    (str "main.js", .chunk (str "import\x7ba\x7dfrom\"missing.js\";console.log(a);")) ]

/-- Claim C2, counterexample: when an import references a module with no
matching chunk in the bundle, generateBundle does not warn and continue —
the non-null assertion in getJsChunkData dereferences undefined and the
whole hook throws (modelled as none): no warning is emitted, the HTML is
not updated, and nothing is deleted. -/
theorem C2_counterexample : generateBundle c2Bundle true = none := by decide

/-- Claim C2 (amended): an import whose referenced module has no chunk with
a matching file name makes getJsChunkData throw (none) — the pass aborts
instead of warning and continuing; only a missing main script tag is
soft-failed with a warning. -/
theorem C2_unresolved_import_throws (origin nm : Str) (jsKeys : List Str)
    (bundle : OutBundle) (rc : Bool) (h : findKey jsKeys nm = none) :
    getJsChunkData origin nm jsKeys bundle rc = none := by
  unfold getJsChunkData
  simp only [h]

/-- Witness for the amended C2 at a concrete unresolvable import. -/
theorem C2_unresolved_import_throws_witness :
    getJsChunkData (str "import\x7ba\x7dfrom\"missing.js\";") (str "missing.js")
      [str "main.js"] c2Bundle true = none :=
  C2_unresolved_import_throws (str "import\x7ba\x7dfrom\"missing.js\";")
    (str "missing.js") [str "main.js"] c2Bundle true (by decide)

/-- Bundle whose entry contains only a bare side-effect import. -/
def c4Bundle : OutBundle :=
  [ (str "index.html", .asset (str "<script src=\"main.js\"></script>")),
    (str "main.js", .chunk (str "import\"a.js\";console.log(1);")),
    (str "a.js", .chunk (str "const a=1;export\x7ba\x7d;")) ]

/-- Claim C4, counterexample: a bare side-effect import import"a.js"; is not
matched by jsChunkRe (which requires a braced specifier list), so it is not
rewritten to a no-op: the assembled script still contains the import
keyword, and a.js is neither inlined nor deleted. -/
theorem C4_counterexample :
    ((generateBundle c4Bundle true).map fun r => r.2.1) = some [str "main.js"]
    ∧ ((generateBundle c4Bundle true).map fun r =>
          (lookupItem r.1 (str "index.html")).map fun i =>
            i.sourceText.map fun h => hasSub h (str "import\"a.js\";"))
        = some (some (some true))
    ∧ ((generateBundle c4Bundle true).map fun r => r.1.map Prod.fst)
        = some [str "index.html", str "a.js"] := by
  refine ⟨by decide, by decide, by decide⟩

/-- Claim C4 (amended): bare side-effect imports are never matched by the
chunk-import pattern (its specifier list is mandatory), so they are left
as-is: a chunk whose code yields no jsChunkRe match is wrapped unchanged
into the script tag, retaining any bare import statements. -/
theorem C4_bare_imports_left_untouched :
    (∀ tail : Str, tryChunkImportAt (str "import" ++ '"' :: tail) = none)
    ∧ (∀ (origin nm key code : Str) (jsKeys : List Str) (bundle : OutBundle) (rc : Bool),
        findKey jsKeys nm = some key →
        lookupItem bundle key = some (BundleItem.chunk code) →
        jsChunkMatchAll (cleanJs rc code) = [] →
        getJsData origin nm jsKeys bundle rc =
          some (origin,
            str "<script type=\"module\">" ++ trimStr (cleanJs rc code) ++ str "</script>",
            [key])) := by
  constructor
  · intro tail
    have hpre := isPrefixOf_append_self (str "import") ('"' :: tail)
    have hdrop : (str "import" ++ '"' :: tail).drop 6 = '"' :: tail := by
      have h6 : (str "import").length = 6 := rfl
      rw [← h6, List.drop_left]
    unfold tryChunkImportAt
    rw [if_pos hpre, hdrop, List.dropWhile_cons, if_neg (by decide)]
    rfl
  · intro origin nm key code jsKeys bundle rc hk hit hmatch
    unfold getJsData
    simp only [hk, hit, BundleItem.codeText, hmatch, seqMap, List.foldl, List.map]

/-- Witness for the amended C4: the concrete bare import of c4Bundle is not
matched, and the entry of c4Bundle is wrapped unchanged. -/
theorem C4_bare_imports_left_untouched_witness :
    tryChunkImportAt (str "import" ++ '"' :: str "a.js\";console.log(1);") = none
    ∧ getJsData (str "<script src=\"main.js\"></script>") (str "main.js")
        [str "main.js", str "a.js"] c4Bundle true =
        some (str "<script src=\"main.js\"></script>",
          str "<script type=\"module\">" ++
            trimStr (cleanJs true (str "import\"a.js\";console.log(1);")) ++
            str "</script>",
          [str "main.js"]) :=
  ⟨C4_bare_imports_left_untouched.1 (str "a.js\";console.log(1);"),
   C4_bare_imports_left_untouched.2 (str "<script src=\"main.js\"></script>")
     (str "main.js") (str "main.js") (str "import\"a.js\";console.log(1);")
     [str "main.js", str "a.js"] c4Bundle true (by decide) (by decide) (by decide)⟩

/-- Bundle whose entry contains two identical import statements for the
same chunk. -/
def c6Bundle : OutBundle :=
  [ (str "index.html", .asset (str "<script src=\"main.js\"></script>")),
    (str "main.js", .chunk
      (str "import\x7ba as b\x7dfrom\"x.js\";import\x7ba as b\x7dfrom\"x.js\";console.log(b);")),
    (str "x.js", .chunk (str "const a=1;export\x7ba\x7d;")) ]

/-- Claim C6, counterexample: when the same chunk is referenced by two
importing statements, its eagerly-evaluated wrapper is emitted once per
importing statement — the assembled output contains the IIFE of x.js
twice, so it does not execute exactly once. -/
theorem C6_counterexample :
    ((generateBundle c6Bundle true).map fun r =>
        (lookupItem r.1 (str "index.html")).map fun i =>
          i.sourceText.map fun h =>
            countSub (str "(()=>\x7bconst a=1;return\x7ba\x7d;\x7d)();") h)
      = some (some (some 2)) := by decide

/-- A small self-contained bundle used to instantiate determinism. -/
def c8Bundle : OutBundle :=
  [ (str "index.html", .asset
      (str "<link rel=\"stylesheet\" href=\"app.css\"><script src=\"main.js\"></script>")),
    (str "app.css", .asset (str "body\x7bcolor:red\x7d")),
    (str "main.js", .chunk (str "console.log(1);")) ]

/-- Claim C8: generateBundle is a pure function of the bundle contents and
the options — the embedding consults no other state — so running the pass
twice on identical bundle contents and identical options yields identical
final bundles (hence byte-identical HTML) and the same deleted keys. -/
theorem C8_determinism (b1 b2 : OutBundle) (rc1 rc2 : Bool)
    (hb : b1 = b2) (hrc : rc1 = rc2) :
    generateBundle b1 rc1 = generateBundle b2 rc2 := by
  rw [hb, hrc]

/-- Witness for C8 at a concrete bundle processed with identical inputs. -/
theorem C8_determinism_witness :
    generateBundle c8Bundle true = generateBundle c8Bundle true :=
  C8_determinism c8Bundle c8Bundle true true rfl rfl

/-- Bundle whose HTML references the same script file from two identical
script tags. -/
def c10Bundle : OutBundle :=
  [ (str "index.html", .asset
      (str "<p>hi</p><script src=\"a.js\"></script><script src=\"a.js\"></script>")),
    (str "a.js", .chunk (str "console.log(1);")) ]

/-- Claim C10, counterexample: with two identical script tags, only the
first is replaced and the second is left textually unchanged — but the file
the second tag references IS inlined (through the first tag) and removed
from the bundle, contradicting the claim that a later tag's file is neither
inlined nor removed. -/
theorem C10_counterexample :
    ((generateBundle c10Bundle true).map fun r => r.2.1) = some [str "a.js"]
    ∧ ((generateBundle c10Bundle true).map fun r =>
          (lookupItem r.1 (str "index.html")).map fun i =>
            i.sourceText.map fun h => hasSub h (str "<script src=\"a.js\"></script>"))
        = some (some (some true))
    ∧ ((generateBundle c10Bundle true).map fun r => r.1.map Prod.fst)
        = some [str "index.html"] := by
  refine ⟨by decide, by decide, by decide⟩

theorem isPrefixOf_false_head {p0 c : Char} {ps X : Str} (hne : c ≠ p0) :
    (p0 :: ps).isPrefixOf (c :: X) = false := by
  cases hb : (p0 :: ps).isPrefixOf (c :: X) with
  | false => rfl
  | true =>
    obtain ⟨u, hu⟩ := List.isPrefixOf_iff_prefix.mp hb
    rw [List.cons_append] at hu
    injection hu with h1 _
    exact absurd h1.symm hne

theorem tryMainAt_not_lt {c : Char} {t : Str} (h : c ≠ '<') : tryMainAt (c :: t) = none := by
  unfold tryMainAt
  rw [if_neg]
  rw [show str "<script" = '<' :: str "script" from rfl]
  simp [isPrefixOf_false_head h]

theorem jsMainFind_skip {pre rest : Str} (hpre : ∀ ch ∈ pre, ch ≠ '<') :
    jsMainFind (pre ++ rest) = jsMainFind rest := by
  induction pre with
  | nil => simp
  | cons c t ih =>
    rw [List.cons_append]
    cases rest' : t ++ rest with
    | nil =>
      rw [jsMainFind, tryMainAt_not_lt (hpre c (by simp))]
      rw [← rest', ih (fun ch hch => hpre ch (by simp [hch]))]
    | cons d u =>
      rw [← rest', jsMainFind, tryMainAt_not_lt (hpre c (by simp))]
      exact ih (fun ch hch => hpre ch (by simp [hch]))

theorem jsMainFind_pos {s o p r : Str} (h : tryMainAt s = some (o, p, r)) :
    jsMainFind s = some (o, p) := by
  cases s with
  | nil =>
    have hnil : tryMainAt ([] : Str) = none := rfl
    rw [hnil] at h
    exact absurd h (by simp)
  | cons c t =>
    rw [jsMainFind]
    split <;> simp_all

theorem replaceOnce_first (pre pat rep post : Str) (c0 : Char)
    (hpat : pat.head? = some c0) (hpre : ∀ ch ∈ pre, ch ≠ c0) :
    replaceOnce pat rep (pre ++ (pat ++ post)) = pre ++ (rep ++ post) := by
  obtain ⟨p0, ps, rfl⟩ : ∃ p0 ps, pat = p0 :: ps := by
    cases pat with
    | nil => simp at hpat
    | cons a b => exact ⟨a, b, rfl⟩
  simp only [List.head?_cons, Option.some.injEq] at hpat
  subst hpat
  induction pre with
  | nil =>
    simp only [List.nil_append]
    rw [show (p0 :: ps) ++ post = p0 :: (ps ++ post) from rfl, replaceOnce,
      if_pos (show (p0 :: ps).isPrefixOf (p0 :: (ps ++ post)) = true by
        simpa using isPrefixOf_append_self (p0 :: ps) post)]
    have hd : List.drop (p0 :: ps).length (p0 :: (ps ++ post)) = post := by
      simpa using List.drop_left (p0 :: ps) post
    rw [hd]
  | cons c t ih =>
    rw [List.cons_append, replaceOnce,
      if_neg (by simp [isPrefixOf_false_head (hpre c (by simp))]),
      ih (fun ch hch => hpre ch (by simp [hch]))]
    rfl

/-- Claim C10 (amended): the main-script scanner returns the leftmost
matching script tag (positions before it contribute nothing), and the
string replacement substitutes only the first occurrence of the matched
tag, leaving every later identical tag textually unchanged.  A later tag is
therefore never selected or replaced on its own behalf — but, as the
counterexample shows, the file it references can still be inlined and
deleted when the first tag's processing pulls it in. -/
theorem C10_first_tag_wins :
    (∀ (pre rest : Str), (∀ ch ∈ pre, ch ≠ '<') →
        jsMainFind (pre ++ rest) = jsMainFind rest)
    ∧ (∀ (s o p r : Str), tryMainAt s = some (o, p, r) → jsMainFind s = some (o, p))
    ∧ (∀ (pre pat rep post : Str) (c0 : Char), pat.head? = some c0 →
        (∀ ch ∈ pre, ch ≠ c0) →
        replaceOnce pat rep (pre ++ (pat ++ post)) = pre ++ (rep ++ post)) :=
  ⟨fun pre rest h => jsMainFind_skip h,
   fun _ _ _ _ h => jsMainFind_pos h,
   fun pre pat rep post c0 h1 h2 => replaceOnce_first pre pat rep post c0 h1 h2⟩

/-- Witness for the amended C10 at a concrete two-tag document. -/
theorem C10_first_tag_wins_witness :
    jsMainFind (str "hi! " ++ str "<script src=\"a.js\"></script><script src=\"a.js\"></script>")
      = jsMainFind (str "<script src=\"a.js\"></script><script src=\"a.js\"></script>")
    ∧ jsMainFind (str "<script src=\"a.js\"></script><script src=\"a.js\"></script>")
      = some (str "<script src=\"a.js\"></script>", str "a.js")
    ∧ replaceOnce (str "<script src=\"a.js\"></script>") (str "<script>1</script>")
        (str "hi! " ++ (str "<script src=\"a.js\"></script>" ++ str "<script src=\"a.js\"></script>"))
      = str "hi! " ++ (str "<script>1</script>" ++ str "<script src=\"a.js\"></script>") :=
  ⟨C10_first_tag_wins.1 (str "hi! ")
     (str "<script src=\"a.js\"></script><script src=\"a.js\"></script>") (by decide),
   C10_first_tag_wins.2.1
     (str "<script src=\"a.js\"></script><script src=\"a.js\"></script>")
     (str "<script src=\"a.js\"></script>") (str "a.js")
     (str "<script src=\"a.js\"></script>") (by decide),
   C10_first_tag_wins.2.2 (str "hi! ") (str "<script src=\"a.js\"></script>")
     (str "<script>1</script>") (str "<script src=\"a.js\"></script>") '<'
     (by decide) (by decide)⟩

theorem seqMap_mem {α β : Type} {f : α → Option β} :
    ∀ {xs : List α} {ys : List β}, seqMap f xs = some ys →
      ∀ y ∈ ys, ∃ x ∈ xs, f x = some y := by
  intro xs
  induction xs with
  | nil =>
    intro ys h y hy
    simp [seqMap] at h
    subst h
    simp at hy
  | cons x xs ih =>
    intro ys h y hy
    unfold seqMap at h
    cases hfx : f x with
    | none => simp only [hfx] at h; simp at h
    | some b =>
      simp only [hfx] at h
      cases hrest : seqMap f xs with
      | none => simp only [hrest] at h; simp at h
      | some bs =>
        simp only [hrest] at h
        simp only [Option.some.injEq] at h
        subst h
        rcases List.mem_cons.mp hy with rfl | hy'
        · exact ⟨x, by simp, hfx⟩
        · obtain ⟨x', hx', hfx'⟩ := ih hrest y hy'
          exact ⟨x', by simp [hx'], hfx'⟩

theorem findKey_mem {keys : List Str} {nm k : Str} (h : findKey keys nm = some k) :
    k ∈ keys :=
  List.mem_of_find?_eq_some h

theorem getCssData_key {o n : Str} {ck : List Str} {b : OutBundle} {rc : Bool}
    {d : Str × Str × Str} (h : getCssData o n ck b rc = some d) : d.2.2 ∈ ck := by
  unfold getCssData at h
  cases hk : findKey ck n with
  | none => simp only [hk] at h; simp at h
  | some key =>
    simp only [hk] at h
    cases hit : lookupItem b key with
    | none => simp only [hit] at h; simp at h
    | some item =>
      simp only [hit] at h
      cases hsrc : item.sourceText with
      | none => simp only [hsrc] at h; simp at h
      | some src =>
        simp only [hsrc] at h
        simp only [Option.some.injEq] at h
        subst h
        exact findKey_mem hk

theorem getJsChunkData_key {o n : Str} {jk : List Str} {b : OutBundle} {rc : Bool}
    {d : Str × Str × Str} (h : getJsChunkData o n jk b rc = some d) : d.2.2 ∈ jk := by
  unfold getJsChunkData at h
  cases hk : findKey jk n with
  | none => simp only [hk] at h; simp at h
  | some key =>
    simp only [hk] at h
    cases hit : lookupItem b key with
    | none => simp only [hit] at h; simp at h
    | some item =>
      simp only [hit] at h
      cases hcode : item.codeText with
      | none => simp only [hcode] at h; simp at h
      | some code =>
        simp only [hcode] at h
        cases hic : import2Const o with
        | none => simp only [hic] at h; simp at h
        | some ic =>
          simp only [hic] at h
          simp only [Option.some.injEq] at h
          subst h
          exact findKey_mem hk

theorem getJsData_keys {o n : Str} {jk : List Str} {b : OutBundle} {rc : Bool}
    {d : Str × Str × List Str} (h : getJsData o n jk b rc = some d) :
    ∀ k ∈ d.2.2, k ∈ jk := by
  unfold getJsData at h
  cases hk : findKey jk n with
  | none => simp only [hk] at h; simp at h
  | some key =>
    simp only [hk] at h
    cases hit : lookupItem b key with
    | none => simp only [hit] at h; simp at h
    | some item =>
      simp only [hit] at h
      cases hcode : item.codeText with
      | none => simp only [hcode] at h; simp at h
      | some code =>
        simp only [hcode] at h
        cases hsm : seqMap (fun m => getJsChunkData m.1 (lastSeg m.2) jk b rc)
            (jsChunkMatchAll (cleanJs rc code)) with
        | none => simp only [hsm] at h; simp at h
        | some datas =>
          simp only [hsm] at h
          simp only [Option.some.injEq] at h
          subst h
          intro k hkmem
          simp only at hkmem
          rcases List.mem_cons.mp hkmem with rfl | hk2
        
          · exact findKey_mem hk
          · obtain ⟨dd, hdd, hdk⟩ := List.mem_map.mp hk2
            obtain ⟨m, _, hm⟩ := seqMap_mem hsm dd hdd
            have := getJsChunkData_key hm
            rw [hdk] at this
            exact this

theorem processHtml_keys {b : OutBundle} {ck jk : List Str} {rc : Bool} {hk : Str}
    {res : Option Str × List Str × List Str}
    (h : processHtml b ck jk rc hk = some res) :
    ∀ k ∈ res.2.1, k ∈ ck ∨ k ∈ jk := by
  unfold processHtml at h
  cases h1 : lookupItem b hk with
  | none => simp only [h1] at h; simp at h
  | some item =>
    simp only [h1] at h
    cases h2 : item.sourceText with
    | none => simp only [h2] at h; simp at h
    | some html =>
      simp only [h2] at h
      cases h3 : seqMap (fun m => getCssData m.1 (lastSeg m.2) ck b rc)
          (cssMatchAll html) with
      | none => simp only [h3] at h; simp at h
      | some cssDatas =>
        simp only [h3] at h
        cases h4 : jsMainFind html with
        | none =>
          simp only [h4] at h
          simp only [Option.some.injEq] at h
          subst h
          simp
        | some jm =>
          obtain ⟨jsOrigin, jsPath⟩ := jm
          simp only [h4] at h
          cases h5 : getJsData jsOrigin (lastSeg jsPath) jk b rc with
          | none => simp only [h5] at h; simp at h
          | some jsData =>
            simp only [h5] at h
            simp only [Option.some.injEq] at h
            subst h
            intro k hkmem
            simp only at hkmem
            rcases List.mem_append.mp hkmem with hcss | hjs
            · obtain ⟨dd, hdd, hdk⟩ := List.mem_map.mp hcss
              obtain ⟨m, _, hm⟩ := seqMap_mem h3 dd hdd
              have := getCssData_key hm
              rw [hdk] at this
              exact Or.inl this
            · exact Or.inr (getJsData_keys h5 k hjs)

theorem processHtml_nomain {b : OutBundle} {ck jk : List Str} {rc : Bool} {hk : Str}
    {res : Option Str × List Str × List Str}
    (h : processHtml b ck jk rc hk = some res) (hnone : res.1 = none) :
    res.2.1 = [] := by
  unfold processHtml at h
  cases h1 : lookupItem b hk with
  | none => simp only [h1] at h; simp at h
  | some item =>
    simp only [h1] at h
    cases h2 : item.sourceText with
    | none => simp only [h2] at h; simp at h
    | some html =>
      simp only [h2] at h
      cases h3 : seqMap (fun m => getCssData m.1 (lastSeg m.2) ck b rc)
          (cssMatchAll html) with
      | none => simp only [h3] at h; simp at h
      | some cssDatas =>
        simp only [h3] at h
        cases h4 : jsMainFind html with
        | none =>
          simp only [h4] at h
          simp only [Option.some.injEq] at h
          subst h
          rfl
        | some jm =>
          obtain ⟨jsOrigin, jsPath⟩ := jm
          simp only [h4] at h
          cases h5 : getJsData jsOrigin (lastSeg jsPath) jk b rc with
          | none => simp only [h5] at h; simp at h
          | some jsData =>
            simp only [h5] at h
            simp only [Option.some.injEq] at h
            subst h
            simp at hnone

theorem updateKey_keys (b : OutBundle) (k : Str) (s : Str) :
    (updateKey b k s).map Prod.fst = b.map Prod.fst := by
  unfold updateKey
  rw [List.map_map]
  apply List.map_congr_left
  intro e _
  by_cases he : e.1 = k <;> simp [he]

theorem processAll_spec {ck jk : List Str} {rc : Bool} :
    ∀ (hks : List Str) (b : OutBundle) (dels warns : List Str)
      (b' : OutBundle) (dels' warns' : List Str),
      processAll ck jk rc b hks dels warns = some (b', dels', warns') →
      b'.map Prod.fst = b.map Prod.fst
      ∧ (∀ k ∈ dels', k ∈ dels ∨ k ∈ ck ∨ k ∈ jk) := by
  intro hks
  induction hks with
  | nil =>
    intro b dels warns b' dels' warns' h
    simp only [processAll, Option.some.injEq] at h
    obtain ⟨rfl, rfl, rfl⟩ := h
    exact ⟨rfl, fun k hkk => Or.inl hkk⟩
  | cons hk rest ih =>
    intro b dels warns b' dels' warns' h
    unfold processAll at h
    cases hp : processHtml b ck jk rc hk with
    | none => simp only [hp] at h; simp at h
    | some res =>
      obtain ⟨upd, keys, ws⟩ := res
      simp only [hp] at h
      cases upd with
      | none =>
        have := ih b (dels ++ keys) (warns ++ ws) b' dels' warns' h
        refine ⟨this.1, fun k hkk => ?_⟩
        rcases this.2 k hkk with hin | hrest
        · rcases List.mem_append.mp hin with hd | hkeys
          · exact Or.inl hd
          · exact Or.inr (processHtml_keys hp k hkeys)
        · exact Or.inr hrest
      | some snew =>
        have := ih (updateKey b hk snew) (dels ++ keys) (warns ++ ws) b' dels' warns' h
        refine ⟨this.1.trans (updateKey_keys b hk snew), fun k hkk => ?_⟩
        rcases this.2 k hkk with hin | hrest
        · rcases List.mem_append.mp hin with hd | hkeys
          · exact Or.inl hd
          · exact Or.inr (processHtml_keys hp k hkeys)
        · exact Or.inr hrest

theorem dedupKeys_sub : ∀ (l seen : List Str) (x : Str), x ∈ dedupKeys l seen → x ∈ l := by
  intro l
  induction l with
  | nil => intro seen x h; simp [dedupKeys] at h
  | cons k t ih =>
    intro seen x h
    unfold dedupKeys at h
    by_cases hks : k ∈ seen
    · rw [if_pos hks] at h
      exact List.mem_cons_of_mem _ (ih seen x h)
    · rw [if_neg hks] at h
      rcases List.mem_cons.mp h with rfl | h'
      · simp
      · exact List.mem_cons_of_mem _ (ih (k :: seen) x h')

theorem removeKeys_mem {b : OutBundle} {ks : List Str} {k : Str}
    (hin : k ∈ b.map Prod.fst) (hout : k ∉ ks) : k ∈ (removeKeys b ks).map Prod.fst := by
  obtain ⟨e, he, hek⟩ := List.mem_map.mp hin
  apply List.mem_map.mpr
  refine ⟨e, ?_, hek⟩
  unfold removeKeys
  apply List.mem_filter.mpr
  refine ⟨he, ?_⟩
  simp only [decide_eq_true_eq]
  rw [hek]
  exact hout

theorem isPrefixOf_head_eq {p0 c : Char} {ps t : Str}
    (h : (p0 :: ps).isPrefixOf (c :: t) = true) : p0 = c := by
  obtain ⟨u, hu⟩ := List.isPrefixOf_iff_prefix.mp h
  have hu' : p0 :: (ps ++ u) = c :: t := by simpa using hu
  exact ((List.cons.injEq _ _ _ _).mp hu').1

theorem not_html_of_css_or_js {k : Str}
    (h : endsWithStr k (str ".css") = true ∨ endsWithStr k (str ".js") = true) :
    endsWithStr k (str ".html") = false := by
  cases hh : endsWithStr k (str ".html") with
  | false => rfl
  | true =>
    exfalso
    unfold endsWithStr List.isSuffixOf at h hh
    rw [show (str ".html").reverse = 'l' :: str "mth." from (by decide)] at hh
    cases hrev : k.reverse with
    | nil => rw [hrev] at hh; exact absurd hh (by decide)
    | cons c t =>
      rw [hrev] at h hh
      have hcl : 'l' = c := isPrefixOf_head_eq hh
      rcases h with hcss | hjs
      · rw [show (str ".css").reverse = 's' :: str "sc." from (by decide)] at hcss
        have : 's' = c := isPrefixOf_head_eq hcss
        rw [← hcl] at this
        exact absurd this (by decide)
      · rw [show (str ".js").reverse = 's' :: str "j." from (by decide)] at hjs
        have : 's' = c := isPrefixOf_head_eq hjs
        rw [← hcl] at this
        exact absurd this (by decide)

/-- Claim C9: the deletion pass of generateBundle only removes CSS and JS
assets collected while inlining some HTML file — every deleted key has a
.css or .js extension and never a .html one; every bundle key that is not
in the deleted list survives into the final bundle (in particular every
HTML entry survives); and an HTML file without a main script tag
contributes no keys to the deletion list. -/
theorem C9_deletion_frame :
    (∀ (bundle : OutBundle) (rc : Bool) (fb : OutBundle) (dels warns : List Str),
        generateBundle bundle rc = some (fb, dels, warns) →
          (∀ k ∈ dels,
            endsWithStr k (str ".css") = true ∨ endsWithStr k (str ".js") = true)
          ∧ (∀ k ∈ dels, endsWithStr k (str ".html") = false)
          ∧ (∀ k ∈ bundle.map Prod.fst, k ∉ dels → k ∈ fb.map Prod.fst)
          ∧ (∀ k ∈ bundle.map Prod.fst, endsWithStr k (str ".html") = true →
              k ∈ fb.map Prod.fst))
    ∧ (∀ (bundle : OutBundle) (cssKeys jsKeys : List Str) (rc : Bool) (hk : Str)
        (res : Option Str × List Str × List Str),
        processHtml bundle cssKeys jsKeys rc hk = some res → res.1 = none →
        res.2.1 = []) := by
  constructor
  · intro bundle rc fb dels warns h
    unfold generateBundle at h
    cases hpa : processAll
        ((bundle.map Prod.fst).filter (fun k => endsWithStr k (str ".css")))
        ((bundle.map Prod.fst).filter (fun k => endsWithStr k (str ".js")))
        rc bundle
        ((bundle.map Prod.fst).filter (fun k => endsWithStr k (str ".html"))) [] [] with
    | none =>
      simp only [hpa] at h
      exact Option.noConfusion h
    | some r =>
      obtain ⟨b1, rdels, rwarns⟩ := r
      simp only [hpa, Option.some.injEq] at h
      obtain ⟨rfl, rfl, rfl⟩ := h
      have spec := processAll_spec _ bundle [] [] _ _ _ hpa
      have hsrc : ∀ k ∈ dedupKeys rdels [],
          endsWithStr k (str ".css") = true ∨ endsWithStr k (str ".js") = true := by
        intro k hkk
        rcases spec.2 k (dedupKeys_sub rdels [] k hkk) with hnil | hck | hjk
        · simp at hnil
        · exact Or.inl (List.mem_filter.mp hck).2
        · exact Or.inr (List.mem_filter.mp hjk).2
      refine ⟨hsrc, fun k hkk => not_html_of_css_or_js (hsrc k hkk), ?_, ?_⟩
      · intro k hkb hknot
        apply removeKeys_mem _ hknot
        rw [spec.1]
        exact hkb
      · intro k hkb hkhtml
        refine removeKeys_mem ?_ (fun hkin => ?_)
        · rw [spec.1]; exact hkb
        · have hne := not_html_of_css_or_js (hsrc k hkin)
          rw [hkhtml] at hne
          exact Bool.noConfusion hne
  · intro bundle ck jk rc hk res h hn
    exact processHtml_nomain h hn

/-- The final bundle produced from c8Bundle, used to witness C9. -/
def c9FinalBundle : OutBundle :=
  [(str "index.html", .asset
    (str "<style>body\x7bcolor:red\x7d</style><script type=\"module\">console.log(1);</script>"))]

/-- Witness for C9 at the concrete bundle c8Bundle. -/
theorem C9_deletion_frame_witness :
    (∀ k ∈ [str "app.css", str "main.js"],
        endsWithStr k (str ".css") = true ∨ endsWithStr k (str ".js") = true)
    ∧ (∀ k ∈ [str "app.css", str "main.js"], endsWithStr k (str ".html") = false)
    ∧ (∀ k ∈ c8Bundle.map Prod.fst, k ∉ [str "app.css", str "main.js"] →
        k ∈ c9FinalBundle.map Prod.fst)
    ∧ (∀ k ∈ c8Bundle.map Prod.fst, endsWithStr k (str ".html") = true →
        k ∈ c9FinalBundle.map Prod.fst) :=
  C9_deletion_frame.1 c8Bundle true c9FinalBundle [str "app.css", str "main.js"] []
    (by decide)

/-- The weight of a bundle entry: how many queue pushes processing it can
cause, at most (one per static or dynamic import reference). -/
def depWeight (e : Str × RollItem) : Nat :=
  e.2.imports.length + e.2.dynamicImports.length

/-- Potential of the collectJsDeps loop: the total weight of the bundle
entries whose key has not been visited yet. -/
def Phi (bundle : RollBundle) (seen : List Str) : Nat :=
  (bundle.map (fun e => if e.1 ∈ seen then 0 else depWeight e)).sum

/-- The list of keys the chunk branch of collectAux appends to the queue. -/
def pushList (bundle : RollBundle) (incD : Bool) (cur : RollItem)
    (seen1 : List Str) : List Str :=
  ((cur.imports ++ (if incD then cur.dynamicImports else [])).filterMap
    (fun n => findBundleKey bundle n)).filter (fun dk => decide (dk ∉ seen1))

theorem Phi_mono_append (b : RollBundle) (seen : List Str) (k : Str) :
    Phi b (seen ++ [k]) ≤ Phi b seen := by
  unfold Phi
  apply List.sum_le_sum
  intro e _
  by_cases h : e.1 ∈ seen
  · rw [if_pos h, if_pos (List.mem_append_left _ h)]
  · rw [if_neg h]
    split
    · exact Nat.zero_le _
    · exact Nat.le_refl _

theorem Phi_drop (p : Str × RollItem) (seen : List Str) (hns : p.1 ∉ seen) :
    ∀ b : RollBundle, p ∈ b → Phi b (seen ++ [p.1]) + depWeight p ≤ Phi b seen := by
  intro b
  induction b with
  | nil => intro h; cases h
  | cons e rest ih =>
    intro hmem
    rcases List.mem_cons.mp hmem with hpe | hmem2
    · subst hpe
      simp only [Phi, List.map_cons, List.sum_cons]
      have h1 : p.1 ∈ seen ++ [p.1] := List.mem_append_right _ (by simp)
      rw [if_pos h1, if_neg hns]
      have hm := Phi_mono_append rest seen p.1
      simp only [Phi] at hm
      omega
    · simp only [Phi, List.map_cons, List.sum_cons]
      have ihm := ih hmem2
      simp only [Phi] at ihm
      have he : (if e.1 ∈ seen ++ [p.1] then 0 else depWeight e)
          ≤ (if e.1 ∈ seen then 0 else depWeight e) := by
        by_cases h : e.1 ∈ seen
        · rw [if_pos h, if_pos (List.mem_append_left _ h)]
        · rw [if_neg h]
          split
          · exact Nat.zero_le _
          · exact Nat.le_refl _
      omega

theorem lookupRoll_spec {b : RollBundle} {k : Str} {cur : RollItem}
    (h : lookupRoll b k = some cur) : ∃ p, p ∈ b ∧ p.1 = k ∧ p.2 = cur := by
  unfold lookupRoll at h
  cases hf : b.find? (fun e => decide (e.1 = k)) with
  | none => rw [hf] at h; simp at h
  | some p =>
    rw [hf] at h
    simp only [Option.map_some', Option.some.injEq] at h
    have h1 := List.find?_some hf
    have h2 := List.mem_of_find?_eq_some hf
    exact ⟨p, h2, by simpa using h1, h⟩

theorem collectAux_hit {bundle : RollBundle} {incD : Bool} {fuel : Nat}
    {k : Str} {t seen : List Str} (hk : k ∈ seen) :
    collectAux bundle incD (fuel + 1) (k :: t) seen
      = collectAux bundle incD fuel t seen := by
  simp [collectAux, hk]

theorem collectAux_miss_none {bundle : RollBundle} {incD : Bool} {fuel : Nat}
    {k : Str} {t seen : List Str} (hk : k ∉ seen)
    (hf : lookupRoll bundle k = none) :
    collectAux bundle incD (fuel + 1) (k :: t) seen
      = collectAux bundle incD fuel t (seen ++ [k]) := by
  simp [collectAux, hk, hf]

theorem collectAux_miss_chunk {bundle : RollBundle} {incD : Bool} {fuel : Nat}
    {k : Str} {t seen : List Str} {cur : RollItem} (hk : k ∉ seen)
    (hf : lookupRoll bundle k = some cur) (hc : cur.type = str "chunk") :
    collectAux bundle incD (fuel + 1) (k :: t) seen
      = collectAux bundle incD fuel
          (t ++ pushList bundle incD cur (seen ++ [k])) (seen ++ [k]) := by
  simp [collectAux, pushList, hk, hf, hc]

theorem collectAux_miss_other {bundle : RollBundle} {incD : Bool} {fuel : Nat}
    {k : Str} {t seen : List Str} {cur : RollItem} (hk : k ∉ seen)
    (hf : lookupRoll bundle k = some cur) (hc : ¬ cur.type = str "chunk") :
    collectAux bundle incD (fuel + 1) (k :: t) seen
      = collectAux bundle incD fuel t (seen ++ [k]) := by
  simp [collectAux, hk, hf, hc]

theorem pushList_len {bundle : RollBundle} {incD : Bool} {cur : RollItem}
    {seen1 : List Str} {p : Str × RollItem} (hpcur : p.2 = cur) :
    (pushList bundle incD cur seen1).length ≤ depWeight p := by
  unfold pushList
  calc (((cur.imports ++ (if incD then cur.dynamicImports else [])).filterMap
        (fun n => findBundleKey bundle n)).filter
        (fun dk => decide (dk ∉ seen1))).length
      ≤ ((cur.imports ++ (if incD then cur.dynamicImports else [])).filterMap
        (fun n => findBundleKey bundle n)).length := List.length_filter_le _ _
    _ ≤ (cur.imports ++ (if incD then cur.dynamicImports else [])).length :=
        List.length_filterMap_le _ _
    _ ≤ depWeight p := by
        rw [List.length_append]
        simp only [depWeight, hpcur]
        cases incD <;> simp

theorem collectAux_some (bundle : RollBundle) (incD : Bool) :
    ∀ (fuel : Nat) (q seen : List Str),
      1 + q.length + Phi bundle seen ≤ fuel →
      ∃ s, collectAux bundle incD fuel q seen = some s := by
  intro fuel
  induction fuel with
  | zero => intro q seen h; omega
  | succ fuel ih =>
    intro q seen h
    cases q with
    | nil => exact ⟨seen, rfl⟩
    | cons k t =>
      simp only [List.length_cons] at h
      by_cases hk : k ∈ seen
      · obtain ⟨s, hs⟩ := ih t seen (by omega)
        exact ⟨s, by rw [collectAux_hit hk]; exact hs⟩
      · have hmono := Phi_mono_append bundle seen k
        cases hf : lookupRoll bundle k with
        | none =>
          obtain ⟨s, hs⟩ := ih t (seen ++ [k]) (by omega)
          exact ⟨s, by rw [collectAux_miss_none hk hf]; exact hs⟩
        | some cur =>
          by_cases hc : cur.type = str "chunk"
          · obtain ⟨p, hpmem, hpk, hpcur⟩ := lookupRoll_spec hf
            have hdrop := Phi_drop p seen (hpk ▸ hk) bundle hpmem
            rw [hpk] at hdrop
            have hlen : (pushList bundle incD cur (seen ++ [k])).length ≤ depWeight p :=
              pushList_len hpcur
            obtain ⟨s, hs⟩ := ih (t ++ pushList bundle incD cur (seen ++ [k]))
              (seen ++ [k]) (by simp only [List.length_append]; omega)
            exact ⟨s, by rw [collectAux_miss_chunk hk hf hc]; exact hs⟩
          · obtain ⟨s, hs⟩ := ih t (seen ++ [k]) (by omega)
            exact ⟨s, by rw [collectAux_miss_other hk hf hc]; exact hs⟩

theorem collectAux_nodup (bundle : RollBundle) (incD : Bool) :
    ∀ (fuel : Nat) (q seen s : List Str),
      seen.Nodup → collectAux bundle incD fuel q seen = some s → s.Nodup := by
  intro fuel
  induction fuel with
  | zero =>
    intro q seen s _ h
    simp [collectAux] at h
  | succ fuel ih =>
    intro q seen s hn h
    cases q with
    | nil =>
      simp only [collectAux, Option.some.injEq] at h
      exact h ▸ hn
    | cons k t =>
      by_cases hk : k ∈ seen
      · rw [collectAux_hit hk] at h
        exact ih t seen s hn h
      · have hn1 : (seen ++ [k]).Nodup := by
          rw [List.nodup_append]
          refine ⟨hn, List.nodup_singleton k, ?_⟩
          intro a ha hak
          rw [List.mem_singleton] at hak
          exact hk (hak ▸ ha)
        cases hf : lookupRoll bundle k with
        | none =>
          rw [collectAux_miss_none hk hf] at h
          exact ih _ _ _ hn1 h
        | some cur =>
          by_cases hc : cur.type = str "chunk"
          · rw [collectAux_miss_chunk hk hf hc] at h
            exact ih _ _ _ hn1 h
          · rw [collectAux_miss_other hk hf hc] at h
            exact ih _ _ _ hn1 h

theorem Phi_nil (b : RollBundle) :
    Phi b [] = (b.map (fun e => e.2.imports.length + e.2.dynamicImports.length)).sum := by
  unfold Phi depWeight
  simp

/-- Claim C7: dependency collection terminates on every bundle, cyclic
dependency graphs included — with the static fuel bound of fuelBound the loop
of collectJsDeps always finishes and returns a result — and each
discovered node is emitted exactly once: the returned dependency list has
no duplicate keys and never contains the entry itself. -/
theorem C7_collect_terminates_unique (entryKey : Str) (bundle : RollBundle)
    (includeDynamic : Bool) :
    ∃ s, collectJsDeps entryKey bundle includeDynamic = some s
      ∧ s.Nodup ∧ entryKey ∉ s := by
  cases hf : lookupRoll bundle entryKey with
  | none =>
    refine ⟨[], ?_, List.nodup_nil, by simp⟩
    simp [collectJsDeps, hf]
  | some st =>
    by_cases hc : st.type = str "chunk"
    · obtain ⟨p, hpmem, hpk, hpcur⟩ := lookupRoll_spec hf
      have hpos : 0 < bundle.length := List.length_pos_of_mem hpmem
      have hfuel : 1 + ([entryKey] : List Str).length + Phi bundle [] ≤ fuelBound bundle := by
        rw [Phi_nil]
        unfold fuelBound
        simp only [List.length_cons, List.length_nil]
        omega
      obtain ⟨s, hs⟩ := collectAux_some bundle includeDynamic (fuelBound bundle)
        [entryKey] [] hfuel
      have hnd : s.Nodup :=
        collectAux_nodup bundle includeDynamic (fuelBound bundle) [entryKey] [] s
          List.nodup_nil hs
      refine ⟨s.erase entryKey, ?_, hnd.erase entryKey, hnd.not_mem_erase⟩
      simp [collectJsDeps, hf, hc, hs]
    · refine ⟨[], ?_, List.nodup_nil, by simp⟩
      simp [collectJsDeps, hf, hc]

/-- A concrete cyclic bundle: a.js and b.js import each other. -/
def c7Bundle : RollBundle :=
  [(str "a.js", ⟨str "chunk", [str "b.js"], []⟩),
   (str "b.js", ⟨str "chunk", [str "a.js"], []⟩)]

/-- On the mutually-importing pair the loop terminates within its fuel and
emits the one dependency once. -/
theorem c7_cycle_eval : collectJsDeps (str "a.js") c7Bundle true = some [str "b.js"] := by
  decide
